import Mathlib

/-! Shallow embedding of the caching / request-deduplication / tracking core of
the Discord bot repository (`cache.py`, `coc_api.py`, `discordwelcomebot.py`,
`donations.py`), together with theorems settling the specification's claims. -/

namespace DiscordBot

/-! ### Association lists

Python dicts keep at most one entry per key.  The source stores its caches and
counters in dicts; we embed them as association lists with dict-like lookup,
assignment and `pop`.  On lists whose keys are nodup these operations agree
with Python dict semantics. -/

namespace Assoc

def lookup {β : Type} : List (String × β) → String → Option β
  | [], _ => none
  | p :: rest, k => if p.1 = k then some p.2 else lookup rest k

def insert {β : Type} : List (String × β) → String → β → List (String × β)
  | [], k, v => [(k, v)]
  | p :: rest, k, v => if p.1 = k then (k, v) :: rest else p :: insert rest k v

def pop {β : Type} : List (String × β) → String → List (String × β)
  | [], _ => []
  | p :: rest, k => if p.1 = k then rest else p :: pop rest k

def keys {β : Type} (l : List (String × β)) : List String := l.map Prod.fst

theorem lookup_eq_none {β : Type} (l : List (String × β)) (k : String)
    (h : k ∉ keys l) : lookup l k = none := by
  induction l with
  | nil => rfl
  | cons p rest ih =>
    simp only [keys, List.map_cons, List.mem_cons, not_or] at h
    rw [lookup, if_neg (fun hh => h.1 hh.symm)]
    exact ih h.2

theorem lookup_insert_self {β : Type} (l : List (String × β)) (k : String) (v : β) :
    lookup (insert l k v) k = some v := by
  induction l with
  | nil => simp [insert, lookup]
  | cons p rest ih =>
    by_cases hp : p.1 = k
    · subst hp
      simp [insert, lookup]
    · simp [insert, lookup, hp, ih]

theorem lookup_insert_ne {β : Type} (l : List (String × β)) (k k' : String) (v : β)
    (h : k' ≠ k) : lookup (insert l k v) k' = lookup l k' := by
  have hkk : ¬(k = k') := fun hh => h hh.symm
  induction l with
  | nil => simp [insert, lookup, hkk]
  | cons p rest ih =>
    by_cases hp : p.1 = k
    · subst hp
      simp [insert, lookup, hkk]
    · simp only [insert, if_neg hp, lookup]
      by_cases hp' : p.1 = k'
      · simp [hp']
      · simp [hp', ih]

theorem lookup_pop_ne {β : Type} (l : List (String × β)) (k k' : String)
    (h : k' ≠ k) : lookup (pop l k) k' = lookup l k' := by
  induction l with
  | nil => simp [pop]
  | cons p rest ih =>
    by_cases hp : p.1 = k
    · subst hp
      rw [pop, if_pos rfl, lookup, if_neg (fun hh => h hh.symm)]
    · simp only [pop, if_neg hp, lookup]
      by_cases hp' : p.1 = k'
      · simp [hp']
      · simp [hp', ih]

theorem lookup_pop_self {β : Type} (l : List (String × β)) (k : String)
    (hnd : (keys l).Nodup) : lookup (pop l k) k = none := by
  induction l with
  | nil => simp [pop, lookup]
  | cons p rest ih =>
    rw [keys, List.map_cons, List.nodup_cons] at hnd
    by_cases hp : p.1 = k
    · subst hp
      rw [pop, if_pos rfl]
      exact lookup_eq_none rest p.1 hnd.1
    · rw [pop, if_neg hp, lookup, if_neg hp]
      exact ih hnd.2

theorem insert_eq_append {β : Type} (l : List (String × β)) (k : String) (v : β)
    (h : lookup l k = none) : insert l k v = l ++ [(k, v)] := by
  induction l with
  | nil => rfl
  | cons p rest ih =>
    rw [lookup] at h
    by_cases hp : p.1 = k
    · rw [if_pos hp] at h
      cases h
    · rw [if_neg hp] at h
      rw [insert, if_neg hp, ih h, List.cons_append]

theorem lookup_append_none {β : Type} (l1 l2 : List (String × β)) (k : String)
    (h1 : lookup l1 k = none) (h2 : lookup l2 k = none) :
    lookup (l1 ++ l2) k = none := by
  induction l1 with
  | nil => exact h2
  | cons p rest ih =>
    rw [lookup] at h1
    by_cases hp : p.1 = k
    · rw [if_pos hp] at h1
      cases h1
    · rw [if_neg hp] at h1
      rw [List.cons_append, lookup, if_neg hp]
      exact ih h1

theorem mem_keys_insert {β : Type} (l : List (String × β)) (k a : String) (v : β) :
    a ∈ keys (insert l k v) ↔ a ∈ keys l ∨ a = k := by
  induction l with
  | nil => simp [insert, keys]
  | cons p rest ih =>
    by_cases hp : p.1 = k
    · subst hp
      rw [insert, if_pos rfl]
      simp only [keys, List.map_cons, List.mem_cons]
      tauto
    · rw [insert, if_neg hp]
      simp only [keys, List.map_cons, List.mem_cons]
      simp only [keys] at ih
      rw [ih]
      tauto

theorem nodup_keys_insert {β : Type} (l : List (String × β)) (k : String) (v : β)
    (hnd : (keys l).Nodup) : (keys (insert l k v)).Nodup := by
  induction l with
  | nil => simp [insert, keys]
  | cons p rest ih =>
    rw [keys, List.map_cons, List.nodup_cons] at hnd
    by_cases hp : p.1 = k
    · subst hp
      rw [insert, if_pos rfl]
      simp only [keys, List.map_cons, List.nodup_cons]
      exact ⟨hnd.1, hnd.2⟩
    · rw [insert, if_neg hp]
      simp only [keys, List.map_cons, List.nodup_cons]
      refine ⟨fun hm => ?_, ih hnd.2⟩
      rcases (mem_keys_insert rest k p.1 v).mp hm with h1 | h2
      · exact hnd.1 h1
      · exact hp h2

theorem keys_pop_subset {β : Type} (l : List (String × β)) (k : String) :
    keys (pop l k) ⊆ keys l := by
  induction l with
  | nil => simp [pop]
  | cons p rest ih =>
    by_cases hp : p.1 = k
    · rw [pop, if_pos hp]
      intro a ha
      rw [keys, List.map_cons]
      exact List.mem_cons_of_mem _ ha
    · rw [pop, if_neg hp, keys, List.map_cons, keys, List.map_cons]
      exact List.cons_subset_cons _ ih

theorem nodup_keys_pop {β : Type} (l : List (String × β)) (k : String)
    (hnd : (keys l).Nodup) : (keys (pop l k)).Nodup := by
  induction l with
  | nil => simp [pop, keys]
  | cons p rest ih =>
    rw [keys, List.map_cons, List.nodup_cons] at hnd
    by_cases hp : p.1 = k
    · rw [pop, if_pos hp]
      exact hnd.2
    · rw [pop, if_neg hp, keys, List.map_cons, List.nodup_cons]
      exact ⟨fun hm => hnd.1 (keys_pop_subset rest k hm), ih hnd.2⟩

theorem keys_filter_subset {β : Type} (l : List (String × β))
    (q : (String × β) → Bool) : keys (l.filter q) ⊆ keys l := by
  intro a ha
  rw [keys, List.mem_map] at ha ⊢
  rcases ha with ⟨b, hb, hab⟩
  exact ⟨b, List.mem_of_mem_filter hb, hab⟩

theorem nodup_keys_filter {β : Type} (l : List (String × β)) (q : (String × β) → Bool)
    (hnd : (keys l).Nodup) : (keys (l.filter q)).Nodup := by
  induction l with
  | nil => simp [keys]
  | cons p rest ih =>
    rw [keys, List.map_cons, List.nodup_cons] at hnd
    by_cases hp : q p = true
    · rw [List.filter_cons_of_pos hp, keys, List.map_cons, List.nodup_cons]
      exact ⟨fun hm => hnd.1 (keys_filter_subset rest q hm), ih hnd.2⟩
    · rw [List.filter_cons_of_neg (by simpa using hp)]
      exact ih hnd.2

/-- Key-based filtering (used for the miss-counter reset loop): looking up a
key whose entries all survive the filter is unchanged. -/
theorem lookup_filter_pos {β : Type} (l : List (String × β))
    (q : (String × β) → Bool) (k : String) (hq : ∀ b, q (k, b) = true) :
    lookup (l.filter q) k = lookup l k := by
  induction l with
  | nil => simp [lookup]
  | cons p rest ih =>
    by_cases hp : p.1 = k
    · have hqp : q p = true := by
        show q (p.1, p.2) = true
        rw [hp]
        exact hq p.2
      rw [List.filter_cons_of_pos hqp, lookup, if_pos hp, lookup, if_pos hp]
    · by_cases hqp : q p = true
      · rw [List.filter_cons_of_pos hqp, lookup, if_neg hp, lookup, if_neg hp]
        exact ih
      · rw [List.filter_cons_of_neg (by simpa using hqp), lookup, if_neg hp]
        exact ih

/-- Key-based filtering: a key rejected by the filter is absent afterwards. -/
theorem lookup_filter_neg {β : Type} (l : List (String × β))
    (q : (String × β) → Bool) (k : String) (hq : ∀ b, q (k, b) = false) :
    lookup (l.filter q) k = none := by
  induction l with
  | nil => simp [lookup]
  | cons p rest ih =>
    by_cases hp : p.1 = k
    · have hqp : q p = false := by
        show q (p.1, p.2) = false
        rw [hp]
        exact hq p.2
      rw [List.filter_cons_of_neg (by simp [hqp])]
      exact ih
    · by_cases hqp : q p = true
      · rw [List.filter_cons_of_pos hqp, lookup, if_neg hp]
        exact ih
      · rw [List.filter_cons_of_neg (by simpa using hqp)]
        exact ih

/-- Looking up inside a key-preserving value map commutes with the lookup. -/
theorem lookup_map {β γ : Type} (l : List (String × β)) (f : String → β → γ)
    (k : String) :
    lookup (l.map (fun p => (p.1, f p.1 p.2))) k = (lookup l k).map (f k) := by
  induction l with
  | nil => simp [lookup]
  | cons p rest ih =>
    by_cases hp : p.1 = k
    · subst hp
      simp [lookup, ih]
    · simp [lookup, hp, ih]

end Assoc

/-! ### `cache.py` — `APICache`

`APICache._cache : Dict[str, Tuple[Any, float]]` maps a key to a pair of the
stored value and the `time.time()` timestamp at which it was stored.
Timestamps and TTLs are embedded as `Int`; each operation takes the current
time `now` explicitly. -/

abbrev Cache (α : Type) := List (String × (α × Int))

/-- `APICache.get(key, ttl)`: if the key is present and `time.time() - timestamp
< ttl`, return the value; if present but expired, delete the entry
(`del self._cache[key]`) and return `None`; otherwise return `None`.  The
result is the Python return value paired with the updated store. -/
def APICache.get {α : Type} (c : Cache α) (key : String) (ttl now : Int) :
    Option α × Cache α :=
  match Assoc.lookup c key with
  | some (v, ts) => if now - ts < ttl then (some v, c) else (none, Assoc.pop c key)
  | none => (none, c)

/-- `APICache.set(key, value)`: `self._cache[key] = (value, time.time())`. -/
def APICache.set {α : Type} (c : Cache α) (key : String) (v : α) (now : Int) :
    Cache α :=
  Assoc.insert c key (v, now)

/-- A sequence of `APICache.get` reads; each op is `(key, ttl, now)`.  Returns
the store left behind after all the reads. -/
def APICache.runGets {α : Type} (c : Cache α) : List (String × Int × Int) → Cache α
  | [] => c
  | op :: rest => APICache.runGets (APICache.get c op.1 op.2.1 op.2.2).2 rest

theorem APICache.get_preserves {α : Type} (c : Cache α) (k k' : String)
    (ttl now v : _) (ts : Int) (hc : Assoc.lookup c k = some (v, ts))
    (hfresh : k' = k → now - ts < ttl) :
    Assoc.lookup (APICache.get c k' ttl now).2 k = some (v, ts) := by
  by_cases hk : k' = k
  · subst hk
    simp [APICache.get, hc, hfresh rfl]
  · rcases hl : Assoc.lookup c k' with _ | ⟨v', ts'⟩
    · simp [APICache.get, hl, hc]
    · by_cases hf : now - ts' < ttl
      · simp [APICache.get, hl, hf, hc]
      · simp only [APICache.get, hl, if_neg hf]
        rw [Assoc.lookup_pop_ne c k' k (fun hh => hk hh.symm)]
        exact hc

theorem APICache.runGets_preserves {α : Type} (ops : List (String × Int × Int))
    (c : Cache α) (k : String) (v : α) (ts : Int)
    (hc : Assoc.lookup c k = some (v, ts))
    (hfresh : ∀ op ∈ ops, op.1 = k → op.2.2 - ts < op.2.1) :
    Assoc.lookup (APICache.runGets c ops) k = some (v, ts) := by
  induction ops generalizing c with
  | nil => exact hc
  | cons op rest ih =>
    rw [APICache.runGets]
    exact ih _ (APICache.get_preserves c k op.1 op.2.1 op.2.2 v ts hc
        (fun hk => hfresh op (List.mem_cons_self op rest) hk))
      (fun o ho hk => hfresh o (List.mem_cons_of_mem op ho) hk)

/-- Claim C4, counterexample.  The claim states that after `set(k, v)` any
`get(k, ttl2)` with `now - storedAt < ttl2` returns `v` regardless of
interleaved `get(k, ttl1)` reads whose smaller `ttl1` makes the entry stale.
On the code this is false: an expired read deletes the entry
(`cache.py` line 40, `del self._cache[key]`), so after `set("k", 7)` at time 0,
a read at time 5 with `ttl1 = 3` evicts the entry and a read at time 5 with
`ttl2 = 10` misses even though `5 - 0 < 10`. -/
theorem C4_per_read_ttl_counterexample :
    (5 : Int) - 0 < 10 ∧
    (APICache.get
      (APICache.get (APICache.set ([] : Cache Nat) "k" 7 0) "k" 3 5).2
      "k" 10 5).1 = none := by
  constructor
  · decide
  · rfl

/-- Claim C4, amended: an entry is served iff it is still present and
`now - storedAt < ttl`; since a stale read evicts the entry, the same stored
entry serves callers with different freshness needs only while every
interleaved read of that key observes it fresh.  Formally: after
`set(k, v)` at `ts`, (a) if every interleaved read of `k` is fresh at its own
`(ttl, now)`, a final `get(k, ttl2)` with `now - ts < ttl2` returns `v`; and
(b) after an interleaved stale read (`now1 - ts ≥ ttl1`), a `get(k, ttl2)`
misses even when `now - ts < ttl2`. -/
theorem C4_per_read_ttl_amended {α : Type} (c0 : Cache α) (k : String) (v : α)
    (ts : Int) (ops : List (String × Int × Int)) (ttl2 now : Int)
    (hnd : (Assoc.keys c0).Nodup) :
    ((∀ op ∈ ops, op.1 = k → op.2.2 - ts < op.2.1) → now - ts < ttl2 →
      (APICache.get (APICache.runGets (APICache.set c0 k v ts) ops) k ttl2 now).1
        = some v)
  ∧ (∀ ttl1 now1, ttl1 ≤ now1 - ts →
      (APICache.get (APICache.get (APICache.set c0 k v ts) k ttl1 now1).2
        k ttl2 now).1 = none) := by
  constructor
  · intro hfresh hnow
    have hl : Assoc.lookup (APICache.runGets (APICache.set c0 k v ts) ops) k
        = some (v, ts) :=
      APICache.runGets_preserves ops _ k v ts
        (Assoc.lookup_insert_self c0 k (v, ts)) hfresh
    simp [APICache.get, hl, hnow]
  · intro ttl1 now1 hstale
    have hl : Assoc.lookup (APICache.set c0 k v ts) k = some (v, ts) :=
      Assoc.lookup_insert_self c0 k (v, ts)
    have hnd' : (Assoc.keys (APICache.set c0 k v ts)).Nodup :=
      Assoc.nodup_keys_insert c0 k (v, ts) hnd
    have h2 : (APICache.get (APICache.set c0 k v ts) k ttl1 now1).2
        = Assoc.pop (APICache.set c0 k v ts) k := by
      simp [APICache.get, hl, show ¬(now1 - ts < ttl1) by omega]
    set c1 := (APICache.get (APICache.set c0 k v ts) k ttl1 now1).2 with hc1
    have h3 : Assoc.lookup c1 k = none := by
      rw [h2]
      exact Assoc.lookup_pop_self _ k hnd'
    simp [APICache.get, h3]

/-- Witness for `C4_per_read_ttl_amended` at concrete inputs: store 7 under
`"k"` at time 0; a fresh interleaved read `(ttl 10, time 4)` keeps the entry
alive for a read `(ttl 10, time 5)`, while a stale read `(ttl 3, time 5)`
evicts it. -/
theorem C4_per_read_ttl_amended_witness :
    (APICache.get (APICache.runGets (APICache.set ([] : Cache Nat) "k" 7 0)
      [("k", 10, 4)]) "k" 10 5).1 = some 7 ∧
    (APICache.get (APICache.get (APICache.set ([] : Cache Nat) "k" 7 0) "k" 3 5).2
      "k" 10 5).1 = none := by
  constructor
  · exact (C4_per_read_ttl_amended ([] : Cache Nat) "k" 7 0 [("k", 10, 4)] 10 5
      (by decide)).1 (by decide) (by decide)
  · exact (C4_per_read_ttl_amended ([] : Cache Nat) "k" 7 0 [] 10 5
      (by decide)).2 3 5 (by decide)

/-! ### `coc_api.py` — `COCAPI._make_request`

The request body loops over the configured credentials: a 200 response caches
the JSON and returns it; a 404 caches `None` ("Cache 404s briefly to avoid
repeated requests") and returns `None`; a timeout, client error or other
status tries the next credential; if all fail the fetch returns `None`.
Responses per credential are abstracted by `resp`; Python's single `None`
value forces the cached-value type to be `Option α`, `none` standing for the
Python `None` sentinel. -/

inductive UpResp (α : Type) where
  | ok (d : α)
  | notFound
  | err
deriving DecidableEq

/-- The `for k in keys` loop inside `_make_request._fetch`. -/
def fetchKeys {α : Type} (resp : String → UpResp α) (ck : String) (now : Int) :
    List String → Cache (Option α) → Option α × Cache (Option α)
  | [], c => (none, c)
  | k :: rest, c =>
    match resp k with
    | .ok d => (some d, APICache.set c ck (some d) now)
    | .notFound => (none, APICache.set c ck none now)
    | .err => fetchKeys resp ck now rest c

/-- `COCAPI._make_request(path, cache_key, ttl)`: `None` when no credentials
are configured; otherwise serve a fresh cached value when the Python check
`cached is not None` passes (i.e. the cache returned a non-`None` object),
else run the fetch loop.  The third component records whether the upstream
was consulted (`_fetch` ran via the deduplicator).  Sequential calls pass
through the deduplicator unchanged, so it is omitted here. -/
def makeRequest {α : Type} (keys : List String) (resp : String → UpResp α)
    (c : Cache (Option α)) (ck : String) (ttl now : Int) :
    Option α × Cache (Option α) × Bool :=
  if keys.isEmpty then (none, c, false)
  else
    match APICache.get c ck ttl now with
    | (some (some d), c1) => (some d, c1, false)
    | (_, c1) =>
      let r := fetchKeys resp ck now keys c1
      (r.1, r.2, true)

/-- Claim C5 (code bug): after an upstream not-found, `_make_request` does
store the `None` sentinel in the cache with the endpoint's TTL class
(`await api_cache.set(cache_key, None)`, `coc_api.py` line 61), but a
subsequent fetch within the TTL is NOT answered from the cache: the read path
checks `if cached is not None` (`coc_api.py` line 38), which a stored `None`
fails, so the upstream is consulted again, contradicting the code's own
comment "Cache 404s briefly to avoid repeated requests".  The run below shows
a first 404 fetch at time 0 storing the sentinel and a second fetch at time
10 (well inside `ttl = 60`) still consulting the upstream. -/
theorem C5_confirmed_absent_code_bug :
    Assoc.lookup
      (makeRequest ["key1"] (fun _ => UpResp.notFound) ([] : Cache (Option Nat))
        "coc:/p" 60 0).2.1 "coc:/p" = some (none, 0)
  ∧ (10 : Int) - 0 < 60
  ∧ (makeRequest ["key1"] (fun _ => UpResp.notFound)
      ((makeRequest ["key1"] (fun _ => UpResp.notFound) ([] : Cache (Option Nat))
        "coc:/p" 60 0).2.1) "coc:/p" 60 10).2.2 = true := by
  decide

/-! ### `discordwelcomebot.py` — `coc_get` credential failover

`coc_get._fetch` first tries the selected credential; on a non-200 or network
failure it loops over `set(COC_API_KEYS.values())` skipping the failed one,
and the first credential answering 200 with a JSON body becomes the new
selected credential (`_selected_coc_key = k`); when every credential fails the
fetch returns `None` and the selection is left untouched.  `resp k = some d`
abstracts a 200 response with body `d` from `_try_key_and_fetch`; `none`
abstracts a timeout, client error or non-200 status. -/

/-- The `for k in set(COC_API_KEYS.values())` failover loop (`if k == key:
continue` and stop on the first success). -/
def tryOtherKeys {α : Type} (resp : String → Option α) (failed : String) :
    List String → Option (String × α)
  | [] => none
  | k :: rest =>
    if k = failed then tryOtherKeys resp failed rest
    else
      match resp k with
      | some d => some (k, d)
      | none => tryOtherKeys resp failed rest

/-- `coc_get._fetch`, given the already-selected credential: returns the fetch
result, the selected credential afterwards, and the cache. -/
def coc_get_fetch {α : Type} (selected : String) (others : List String)
    (resp : String → Option α) (c : Cache α) (ck : String) (now : Int) :
    Option α × String × Cache α :=
  match resp selected with
  | some d => (some d, selected, APICache.set c ck d now)
  | none =>
    match tryOtherKeys resp selected others with
    | some (k, d) => (some d, k, APICache.set c ck d now)
    | none => (none, selected, c)

/-- Modelled from the spec: "tries the remaining credentials in turn
(excluding the failed one) ...; the first to succeed becomes the new
selected credential". -/
def firstSuccess {α : Type} (resp : String → Option α) :
    List String → Option (String × α)
  | [] => none
  | k :: rest =>
    match resp k with
    | some d => some (k, d)
    | none => firstSuccess resp rest

theorem tryOtherKeys_eq_firstSuccess {α : Type} (resp : String → Option α)
    (failed : String) (l : List String) :
    tryOtherKeys resp failed l
      = firstSuccess resp (l.filter (fun x => x != failed)) := by
  induction l with
  | nil => rfl
  | cons k rest ih =>
    by_cases hk : k = failed
    · simp [tryOtherKeys, hk, List.filter_cons, ih]
    · cases hr : resp k with
      | some d => simp [tryOtherKeys, hk, List.filter_cons, hr, firstSuccess]
      | none => simp [tryOtherKeys, hk, List.filter_cons, hr, firstSuccess, ih]

theorem firstSuccess_eq_none {α : Type} (resp : String → Option α)
    (l : List String) (h : ∀ k ∈ l, resp k = none) :
    firstSuccess resp l = none := by
  induction l with
  | nil => rfl
  | cons k rest ih =>
    rw [firstSuccess, h k (List.mem_cons_self k rest)]
    exact ih (fun x hx => h x (List.mem_cons_of_mem k hx))

/-- Claim C6: within one logical fetch, if the selected credential succeeds its
result is cached and the selection is unchanged; if it fails, the remaining
credentials (the configured ones minus the failed one) are tried in turn and
the first to succeed becomes the new selected credential; if every credential
fails, the fetch is a miss for this tick, nothing is cached, and the
previously selected credential is unchanged. -/
theorem C6_credential_failover {α : Type} (selected : String)
    (others : List String) (resp : String → Option α) (c : Cache α)
    (ck : String) (now : Int) :
    (coc_get_fetch selected others resp c ck now =
      match resp selected with
      | some d => (some d, selected, APICache.set c ck d now)
      | none =>
        match firstSuccess resp (others.filter (fun x => x != selected)) with
        | some (k, d) => (some d, k, APICache.set c ck d now)
        | none => (none, selected, c))
  ∧ ((∀ k, resp k = none) →
      coc_get_fetch selected others resp c ck now = (none, selected, c)) := by
  constructor
  · rw [coc_get_fetch, tryOtherKeys_eq_firstSuccess]
  · intro hall
    rw [coc_get_fetch, hall selected, tryOtherKeys_eq_firstSuccess,
      firstSuccess_eq_none resp _ (fun k _ => hall k)]

/-- Witness for `C6_credential_failover`: with two credentials and both
failing, the fetch at the concrete inputs is a miss and the selection stays
`"a"`; with `"b"` succeeding, failover selects `"b"` and caches its result. -/
theorem C6_credential_failover_witness :
    coc_get_fetch "a" ["a", "b"] (fun _ => (none : Option Nat)) [] "ck" 0
      = (none, "a", [])
  ∧ coc_get_fetch "a" ["a", "b"]
      (fun k => if k = "b" then some 5 else (none : Option Nat)) [] "ck" 0
      = (some 5, "b", [("ck", (5, 0))]) := by
  constructor
  · exact (C6_credential_failover "a" ["a", "b"] (fun _ => (none : Option Nat))
      [] "ck" 0).2 (fun _ => rfl)
  · rw [(C6_credential_failover "a" ["a", "b"]
      (fun k => if k = "b" then some 5 else (none : Option Nat)) [] "ck" 0).1]
    decide

/-! ### `cache.py` — `RequestDeduplicator.get_or_create`

The method has three atomic segments per caller (atomic because the event
loop only switches at `await` points and both dict accesses are guarded by
`self._lock`):

* arrival — under the lock: if `key in self._pending`, adopt the pending
  future, else create the factory task, register it, and adopt it;
* awaiting the adopted future until it settles;
* cleanup (the `finally` block) — under the lock: delete the pending entry
  only if it is still the very future this caller awaited
  (`self._pending[key] == future`, identity for `asyncio` tasks).

We embed the behaviour for one key as a transition system over interleavings
of these segments.  Futures are numbered by creation order (`nextId`);
`obtained i` is the future caller `i` adopted; `created` lists the factory
executions; `settled`/`cleaned` record which futures settled and which
callers ran their cleanup.  A schedule is valid when each caller arrives at
most once, only created unsettled futures settle, and a caller cleans up
exactly once, after the future it awaits has settled. -/

structure DedupState where
  pending : Option Nat
  nextId : Nat
  obtained : Nat → Option Nat
  created : List Nat
  settled : List Nat
  cleaned : List Nat

def DedupState.init : DedupState :=
  { pending := none, nextId := 0, obtained := fun _ => none,
    created := [], settled := [], cleaned := [] }

inductive DedupEv where
  | arrive (i : Nat)
  | settleFut (f : Nat)
  | cleanup (i : Nat)
deriving DecidableEq

def dedupStep (s : DedupState) : DedupEv → DedupState
  | .arrive i =>
    match s.pending with
    | some f => { s with obtained := fun j => if j = i then some f else s.obtained j }
    | none =>
      { s with pending := some s.nextId,
               obtained := fun j => if j = i then some s.nextId else s.obtained j,
               created := s.created ++ [s.nextId],
               nextId := s.nextId + 1 }
  | .settleFut f => { s with settled := s.settled ++ [f] }
  | .cleanup i =>
    match s.pending, s.obtained i with
    | some g, some f =>
      if g = f then { s with pending := none, cleaned := s.cleaned ++ [i] }
      else { s with cleaned := s.cleaned ++ [i] }
    | _, _ => { s with cleaned := s.cleaned ++ [i] }

def okEv (s : DedupState) : DedupEv → Bool
  | .arrive i => s.obtained i == none
  | .settleFut f => s.created.contains f && !(s.settled.contains f)
  | .cleanup i =>
    match s.obtained i with
    | some f => s.settled.contains f && !(s.cleaned.contains i)
    | none => false

def validRun (s : DedupState) : List DedupEv → Bool
  | [] => true
  | e :: rest => okEv s e && validRun (dedupStep s e) rest

def dedupRun (s : DedupState) (evs : List DedupEv) : DedupState :=
  evs.foldl dedupStep s

def DedupEv.isArrive : DedupEv → Bool
  | .arrive _ => true
  | _ => false

theorem validRun_append (s : DedupState) (l1 l2 : List DedupEv) :
    validRun s (l1 ++ l2)
      = (validRun s l1 && validRun (dedupRun s l1) l2) := by
  induction l1 generalizing s with
  | nil => simp [validRun, dedupRun]
  | cons e rest ih =>
    simp [validRun, dedupRun, ih, List.foldl_cons, Bool.and_assoc]

theorem dedupRun_append (s : DedupState) (l1 l2 : List DedupEv) :
    dedupRun s (l1 ++ l2) = dedupRun (dedupRun s l1) l2 := by
  simp [dedupRun, List.foldl_append]

/-- Invariant holding after the first arrival while only arrivals happen:
exactly one factory task (future 0) was created, it is pending, and every
caller that has adopted a future adopted future 0. -/
def ArrivalPhase (s : DedupState) : Prop :=
  s.pending = some 0 ∧ s.nextId = 1 ∧ s.created = [0] ∧
  (∀ i, s.obtained i = none ∨ s.obtained i = some 0)

theorem arrivalPhase_step (s : DedupState) (hs : ArrivalPhase s) (i : Nat) :
    ArrivalPhase (dedupStep s (.arrive i)) ∧
    (dedupStep s (.arrive i)).obtained i = some 0 ∧
    (∀ j, s.obtained j = some 0 → (dedupStep s (.arrive i)).obtained j = some 0) := by
  obtain ⟨hp, hn, hc, ho⟩ := hs
  have hred : dedupStep s (.arrive i)
      = { s with obtained := fun j => if j = i then some 0 else s.obtained j } := by
    simp [dedupStep, hp]
  rw [hred]
  refine ⟨⟨hp, hn, hc, fun j => ?_⟩, by simp, fun j hj => ?_⟩
  · by_cases hji : j = i
    · simp [hji]
    · simpa [hji] using ho j
  · by_cases hji : j = i <;> simp [hji, hj]

theorem arrivalPhase_run (A : List DedupEv) (s : DedupState)
    (hA : ∀ e ∈ A, e.isArrive = true) (hs : ArrivalPhase s) :
    ArrivalPhase (dedupRun s A) ∧
    (∀ i, (DedupEv.arrive i ∈ A ∨ s.obtained i = some 0) →
      (dedupRun s A).obtained i = some 0) := by
  induction A generalizing s with
  | nil =>
    refine ⟨hs, fun i hi => ?_⟩
    rcases hi with hi | hi
    · cases hi
    · exact hi
  | cons e rest ih =>
    obtain ⟨j, rfl⟩ : ∃ j, e = DedupEv.arrive j := by
      have := hA e (List.mem_cons_self _ _)
      cases e with
      | arrive j => exact ⟨j, rfl⟩
      | settleFut f => simp [DedupEv.isArrive] at this
      | cleanup i => simp [DedupEv.isArrive] at this
    have hstep := arrivalPhase_step s hs j
    have hrest := ih (dedupStep s (.arrive j))
      (fun e' he' => hA e' (List.mem_cons_of_mem _ he')) hstep.1
    rw [dedupRun, List.foldl_cons]
    refine ⟨hrest.1, fun i hi => ?_⟩
    rcases hi with hi | hi
    · rcases List.mem_cons.mp hi with hi | hi
      · cases hi
        exact hrest.2 j (Or.inr hstep.2.1)
      · exact hrest.2 i (Or.inl hi)
    · exact hrest.2 i (Or.inr (hstep.2.2 i hi))

theorem dedupStep_cleanup_proj (s : DedupState) (j : Nat) :
    (dedupStep s (.cleanup j)).obtained = s.obtained ∧
    (dedupStep s (.cleanup j)).created = s.created ∧
    ((dedupStep s (.cleanup j)).pending = s.pending ∨
      (dedupStep s (.cleanup j)).pending = none) := by
  rcases h1 : s.pending with _ | g <;> rcases h2 : s.obtained j with _ | f
  · simp [dedupStep, h1, h2]
  · simp [dedupStep, h1, h2]
  · simp [dedupStep, h1, h2]
  · by_cases hgf : g = f <;> simp [dedupStep, h1, h2, hgf]

/-- The cleanup of a caller whose adopted future is still the registered
pending one removes the entry (`del self._pending[key]`). -/
theorem dedupStep_cleanup_deletes (s : DedupState) (j : Nat)
    (h2 : s.obtained j = some 0) (h1 : s.pending = some 0) :
    (dedupStep s (.cleanup j)).pending = none := by
  simp [dedupStep, h1, h2]

theorem dedupStep_obtained_nonarrive (s : DedupState) (e : DedupEv)
    (h : e.isArrive = false) : (dedupStep s e).obtained = s.obtained := by
  cases e with
  | arrive j => simp [DedupEv.isArrive] at h
  | settleFut f => rfl
  | cleanup j => exact (dedupStep_cleanup_proj s j).1

/-- In the settle/cleanup phase no new factory task is created, adopted
futures do not change, and pending can only keep its value or be emptied. -/
theorem settlePhase_run (B : List DedupEv) (s : DedupState)
    (hB : ∀ e ∈ B, e.isArrive = false) :
    (dedupRun s B).created = s.created ∧
    (dedupRun s B).obtained = s.obtained ∧
    ((dedupRun s B).pending = s.pending ∨ (dedupRun s B).pending = none) := by
  induction B generalizing s with
  | nil => exact ⟨rfl, rfl, Or.inl rfl⟩
  | cons e rest ih =>
    have hBr : ∀ e' ∈ rest, e'.isArrive = false :=
      fun e' he' => hB e' (List.mem_cons_of_mem _ he')
    have h := ih (dedupStep s e) hBr
    rw [dedupRun, List.foldl_cons]
    cases e with
    | arrive j =>
      have := hB (.arrive j) (List.mem_cons_self _ _)
      simp [DedupEv.isArrive] at this
    | settleFut f => exact ⟨h.1, h.2.1, h.2.2⟩
    | cleanup j =>
      obtain ⟨hob, hcr, hpe⟩ := dedupStep_cleanup_proj s j
      refine ⟨h.1.trans hcr, h.2.1.trans hob, ?_⟩
      rcases h.2.2 with h' | h'
      · rcases hpe with hp' | hp'
        · exact Or.inl (h'.trans hp')
        · exact Or.inr (h'.trans hp')
      · exact Or.inr h'

/-- In a valid schedule a cleanup event can only belong to a caller that has
adopted a future (the `finally` block runs only after the caller awaited). -/
theorem validRun_cleanup_mem (B : List DedupEv) (s : DedupState)
    (hB : ∀ e ∈ B, e.isArrive = false) (hv : validRun s B = true)
    (i : Nat) (hc : DedupEv.cleanup i ∈ B) : s.obtained i ≠ none := by
  induction B generalizing s with
  | nil => cases hc
  | cons e rest ih =>
    rw [validRun, Bool.and_eq_true] at hv
    rcases List.mem_cons.mp hc with he | hrest
    · subst he
      rw [okEv] at hv
      rcases h2 : s.obtained i with _ | f
      · rw [h2] at hv
        simp at hv
      · simp [h2]
    · have hoe : (dedupStep s e).obtained = s.obtained :=
        dedupStep_obtained_nonarrive s e (hB e (List.mem_cons_self _ _))
      have := ih (dedupStep s e) (fun e' he' => hB e' (List.mem_cons_of_mem _ he'))
        hv.2 hrest
      rw [hoe] at this
      exact this

/-- Once a cleanup of an awaiter of future 0 runs in the settle phase,
pending is empty and stays empty. -/
theorem settlePhase_cleanup_empties (B : List DedupEv) (s : DedupState)
    (hB : ∀ e ∈ B, e.isArrive = false)
    (hp : s.pending = some 0 ∨ s.pending = none)
    (ho : ∀ i, s.obtained i = none ∨ s.obtained i = some 0)
    (hc : ∃ i, DedupEv.cleanup i ∈ B ∧ s.obtained i = some 0) :
    (dedupRun s B).pending = none := by
  induction B generalizing s with
  | nil =>
    obtain ⟨i, hi, _⟩ := hc
    cases hi
  | cons e rest ih =>
    obtain ⟨i, hiB, hoi⟩ := hc
    have hBr : ∀ e' ∈ rest, e'.isArrive = false :=
      fun e' he' => hB e' (List.mem_cons_of_mem _ he')
    rw [dedupRun, List.foldl_cons]
    rcases List.mem_cons.mp hiB with hei | hirest
    · -- the head event is the cleanup of an awaiter of future 0
      subst hei
      have hafter : (dedupStep s (.cleanup i)).pending = none := by
        rcases hp with hp | hp
        · exact dedupStep_cleanup_deletes s i hoi hp
        · rcases (dedupStep_cleanup_proj s i).2.2 with h' | h'
          · exact h'.trans hp
          · exact h'
      have h := settlePhase_run rest (dedupStep s (.cleanup i)) hBr
      rcases h.2.2 with h' | h'
      · exact h'.trans hafter
      · exact h'
    · cases e with
      | arrive j =>
        have := hB (.arrive j) (List.mem_cons_self _ _)
        simp [DedupEv.isArrive] at this
      | settleFut f =>
        exact ih (dedupStep s (.settleFut f)) hBr hp ho ⟨i, hirest, hoi⟩
      | cleanup j =>
        obtain ⟨hob, hcr, hpe⟩ := dedupStep_cleanup_proj s j
        refine ih (dedupStep s (.cleanup j)) hBr ?_ ?_ ?_
        · rcases hpe with h' | h'
          · rw [h']
            exact hp
          · exact Or.inr h'
        · rw [hob]
          exact ho
        · exact ⟨i, hirest, by rw [hob]; exact hoi⟩

/-- Claim C1: for a key with no fresh cached value, when the callers'
arrivals (the registration segments of their concurrent `getOrFetch` calls)
all happen before the fetch settles — i.e. the schedule is an arrival block
`A` followed by a block `B` of settle/cleanup events — the factory task is
created exactly once (future `0`), every arrived caller adopted that same
future and hence observes the one shared outcome `outcome 0`, and as soon as
any caller's cleanup has run the pending entry for the key is gone, so a
later call may retry. -/
theorem C1_concurrent_dedup (A B : List DedupEv) (outcome : Nat → Option Nat)
    (hA : ∀ e ∈ A, e.isArrive = true) (hAne : A ≠ [])
    (hB : ∀ e ∈ B, e.isArrive = false)
    (hv : validRun DedupState.init (A ++ B) = true) :
    (dedupRun DedupState.init (A ++ B)).created = [0]
  ∧ (∀ i, DedupEv.arrive i ∈ A →
      (dedupRun DedupState.init (A ++ B)).obtained i = some 0 ∧
      ((dedupRun DedupState.init (A ++ B)).obtained i).map outcome
        = some (outcome 0))
  ∧ ((∃ i, DedupEv.cleanup i ∈ B) →
      (dedupRun DedupState.init (A ++ B)).pending = none) := by
  obtain ⟨e0, A', hA0⟩ : ∃ e0 A', A = e0 :: A' := by
    cases A with
    | nil => exact absurd rfl hAne
    | cons e0 A' => exact ⟨e0, A', rfl⟩
  obtain ⟨i0, hi0⟩ : ∃ i0, e0 = DedupEv.arrive i0 := by
    have := hA e0 (hA0 ▸ List.mem_cons_self _ _)
    cases e0 with
    | arrive i => exact ⟨i, rfl⟩
    | settleFut f => simp [DedupEv.isArrive] at this
    | cleanup i => simp [DedupEv.isArrive] at this
  subst hi0
  have hfirst : ArrivalPhase (dedupStep DedupState.init (.arrive i0)) ∧
      (dedupStep DedupState.init (.arrive i0)).obtained i0 = some 0 := by
    constructor
    · refine ⟨by simp [dedupStep, DedupState.init], by simp [dedupStep, DedupState.init],
        by simp [dedupStep, DedupState.init], fun i => ?_⟩
      by_cases hi : i = i0 <;> simp [dedupStep, DedupState.init, hi]
    · simp [dedupStep, DedupState.init]
  have hAphase := arrivalPhase_run A' (dedupStep DedupState.init (.arrive i0))
    (fun e he => hA e (hA0 ▸ List.mem_cons_of_mem _ he)) hfirst.1
  have hsA : dedupRun DedupState.init A
      = dedupRun (dedupStep DedupState.init (.arrive i0)) A' := by
    rw [hA0, dedupRun, List.foldl_cons]
    rfl
  have hAP : ArrivalPhase (dedupRun DedupState.init A) := hsA ▸ hAphase.1
  have hBphase := settlePhase_run B (dedupRun DedupState.init A) hB
  rw [dedupRun_append]
  refine ⟨by rw [hBphase.1]; exact hAP.2.2.1, fun i hi => ?_, fun hcl => ?_⟩
  · have hoi : (dedupRun DedupState.init A).obtained i = some 0 := by
      have hi' : DedupEv.arrive i ∈ DedupEv.arrive i0 :: A' := by
        rw [← hA0]
        exact hi
      rw [hsA]
      rcases List.mem_cons.mp hi' with h | h
      · have hii := DedupEv.arrive.inj h
        exact hAphase.2 i (Or.inr (by rw [hii]; exact hfirst.2))
      · exact hAphase.2 i (Or.inl h)
    rw [hBphase.2.1, hoi]
    exact ⟨rfl, rfl⟩
  · obtain ⟨i, hi⟩ := hcl
    apply settlePhase_cleanup_empties B (dedupRun DedupState.init A) hB
      (Or.inl hAP.1) hAP.2.2.2
    refine ⟨i, hi, ?_⟩
    have hvB : validRun (dedupRun DedupState.init A) B = true := by
      rw [validRun_append, Bool.and_eq_true] at hv
      exact hv.2
    have hne := validRun_cleanup_mem B (dedupRun DedupState.init A) hB hvB i hi
    rcases hAP.2.2.2 i with h' | h'
    · exact absurd h' hne
    · exact h'

/-- Witness for `C1_concurrent_dedup`: two callers arrive, the fetch settles,
both clean up.  One factory task ran, the late caller adopted future 0, and
the pending entry is gone at the end. -/
theorem C1_concurrent_dedup_witness :
    (dedupRun DedupState.init
      ([DedupEv.arrive 0, DedupEv.arrive 1] ++
        [DedupEv.settleFut 0, DedupEv.cleanup 0, DedupEv.cleanup 1])).created = [0]
  ∧ (dedupRun DedupState.init
      ([DedupEv.arrive 0, DedupEv.arrive 1] ++
        [DedupEv.settleFut 0, DedupEv.cleanup 0, DedupEv.cleanup 1])).obtained 1
      = some 0
  ∧ (dedupRun DedupState.init
      ([DedupEv.arrive 0, DedupEv.arrive 1] ++
        [DedupEv.settleFut 0, DedupEv.cleanup 0, DedupEv.cleanup 1])).pending
      = none := by
  have h := C1_concurrent_dedup [DedupEv.arrive 0, DedupEv.arrive 1]
    [DedupEv.settleFut 0, DedupEv.cleanup 0, DedupEv.cleanup 1] (fun f => some f)
    (by decide) (by decide) (by decide) (by decide)
  exact ⟨h.1, (h.2.1 1 (by decide)).1, h.2.2 ⟨0, by decide⟩⟩

/-- The invariant behind claim C10: adopted and pending future ids are below
`nextId`, a cleaned caller has adopted something, and once some awaiter of
future `f` has cleaned up, `f` is no longer the pending entry. -/
def DedupInv (f : Nat) (s : DedupState) : Prop :=
  (∀ i x, s.obtained i = some x → x < s.nextId) ∧
  (∀ y, s.pending = some y → y < s.nextId) ∧
  (∀ i, i ∈ s.cleaned → s.obtained i ≠ none) ∧
  ((∃ i, s.obtained i = some f ∧ i ∈ s.cleaned) → s.pending ≠ some f)

theorem dedupInv_init (f : Nat) : DedupInv f DedupState.init := by
  refine ⟨fun i x h => ?_, fun y h => ?_, fun i h => ?_, fun h => ?_⟩
  · cases h
  · cases h
  · exact absurd h (List.not_mem_nil i)
  · obtain ⟨i, h1, h2⟩ := h
    exact absurd h2 (List.not_mem_nil i)

theorem dedupInv_step (f : Nat) (s : DedupState) (e : DedupEv)
    (hok : okEv s e = true) (hs : DedupInv f s) : DedupInv f (dedupStep s e) := by
  obtain ⟨inv1, inv2, inv3, inv4⟩ := hs
  cases e with
  | arrive i =>
    have hobt : s.obtained i = none := by
      rw [okEv] at hok
      simpa using hok
    rcases hp : s.pending with _ | p0
    · have hred : dedupStep s (.arrive i) = { s with
          pending := some s.nextId,
          obtained := fun j => if j = i then some s.nextId else s.obtained j,
          created := s.created ++ [s.nextId], nextId := s.nextId + 1 } := by
        simp [dedupStep, hp]
      rw [hred]
      refine ⟨fun j x h => ?_, fun y h => ?_, fun j h => ?_, fun h => ?_⟩
      · by_cases hj : j = i
        · simp [hj] at h
          show x < s.nextId + 1
          omega
        · simp only [hj, if_neg hj] at h
          exact Nat.lt_succ_of_lt (inv1 j x h)
      · simp only [Option.some.injEq] at h
        show y < s.nextId + 1
        omega
      · by_cases hj : j = i
        · simp [hj]
        · simp only [hj, if_neg hj]
          exact inv3 j h
      · obtain ⟨j, h1, h2⟩ := h
        by_cases hj : j = i
        · subst hj
          exact absurd hobt (inv3 j h2)
        · simp only [hj, if_neg hj] at h1
          have := inv1 j f h1
          simp only [ne_eq, Option.some.injEq]
          omega
    · have hred : dedupStep s (.arrive i) = { s with
          obtained := fun j => if j = i then some p0 else s.obtained j } := by
        simp [dedupStep, hp]
      rw [hred]
      refine ⟨fun j x h => ?_, inv2, fun j h => ?_, fun h => ?_⟩
      · by_cases hj : j = i
        · simp [hj] at h
          have := inv2 p0 hp
          show x < s.nextId
          omega
        · simp only [hj, if_neg hj] at h
          exact inv1 j x h
      · by_cases hj : j = i
        · simp [hj]
        · simp only [hj, if_neg hj]
          exact inv3 j h
      · obtain ⟨j, h1, h2⟩ := h
        by_cases hj : j = i
        · subst hj
          exact absurd hobt (inv3 j h2)
        · simp only [hj, if_neg hj] at h1
          exact inv4 ⟨j, h1, h2⟩
  | settleFut g =>
    exact ⟨inv1, inv2, inv3, inv4⟩
  | cleanup i =>
    have hobt : ∃ fi, s.obtained i = some fi := by
      rw [okEv] at hok
      rcases h2 : s.obtained i with _ | fi
      · rw [h2] at hok
        simp at hok
      · exact ⟨fi, rfl⟩
    obtain ⟨fi, hfi⟩ := hobt
    rcases hp : s.pending with _ | g
    · have hred : dedupStep s (.cleanup i)
          = { s with cleaned := s.cleaned ++ [i] } := by
        simp [dedupStep, hp, hfi]
      rw [hred]
      refine ⟨inv1, inv2, fun j h => ?_, fun h => ?_⟩
      · rcases List.mem_append.mp h with h | h
        · exact inv3 j h
        · have hj : j = i := by simpa using h
          rw [hj, hfi]
          simp
      · show s.pending ≠ some f
        rw [hp]
        simp
    · by_cases hgf : g = fi
      · have hred : dedupStep s (.cleanup i)
            = { s with pending := none, cleaned := s.cleaned ++ [i] } := by
          simp [dedupStep, hp, hfi, hgf]
        rw [hred]
        refine ⟨inv1, fun y h => ?_, fun j h => ?_, fun h => ?_⟩
        · cases h
        · rcases List.mem_append.mp h with h | h
          · exact inv3 j h
          · have hj : j = i := by simpa using h
            rw [hj, hfi]
            simp
        · simp
      · have hred : dedupStep s (.cleanup i)
            = { s with cleaned := s.cleaned ++ [i] } := by
          simp [dedupStep, hp, hfi, hgf]
        rw [hred]
        refine ⟨inv1, inv2, fun j h => ?_, fun h => ?_⟩
        · rcases List.mem_append.mp h with h | h
          · exact inv3 j h
          · have hj : j = i := by simpa using h
            rw [hj, hfi]
            simp
        · obtain ⟨j, h1, h2⟩ := h
          rcases List.mem_append.mp h2 with h2 | h2
          · exact inv4 ⟨j, h1, h2⟩
          · have hj : j = i := by simpa using h2
            subst hj
            rw [hfi] at h1
            have hfif : fi = f := Option.some.inj h1
            show s.pending ≠ some f
            rw [hp]
            intro hcon
            exact hgf ((Option.some.inj hcon).trans hfif.symm)

theorem dedupInv_run (f : Nat) (evs : List DedupEv) (s : DedupState)
    (hv : validRun s evs = true) (hs : DedupInv f s) :
    DedupInv f (dedupRun s evs) := by
  induction evs generalizing s with
  | nil => exact hs
  | cons e rest ih =>
    rw [validRun, Bool.and_eq_true] at hv
    rw [dedupRun, List.foldl_cons]
    exact ih (dedupStep s e) hv.2 (dedupInv_step f s e hv.1 hs)

/-- Claim C10: the cleanup in `get_or_create` deletes the pending entry only
when it still holds the very future this caller awaited
(`self._pending[key] == future`): (a) in any valid schedule, once any awaiter
of a settled future `f` has run its cleanup, `f` is no longer registered
under the key — so the key is free for (or already taken by) a newer fetch —
and (b) a caller whose awaited future differs from the registered one leaves
the registered entry untouched. -/
theorem C10_cleanup_identity (evs : List DedupEv) (f : Nat)
    (hv : validRun DedupState.init evs = true) :
    ((∃ i, (dedupRun DedupState.init evs).obtained i = some f ∧
        i ∈ (dedupRun DedupState.init evs).cleaned) →
      (dedupRun DedupState.init evs).pending ≠ some f)
  ∧ (∀ (s : DedupState) (i g : Nat), s.pending = some g → s.obtained i ≠ some g →
      (dedupStep s (.cleanup i)).pending = some g) := by
  constructor
  · exact (dedupInv_run f evs DedupState.init hv (dedupInv_init f)).2.2.2
  · intro s i g hp hne
    rcases h2 : s.obtained i with _ | fi
    · simp [dedupStep, hp, h2]
    · have hgf : ¬g = fi := fun hh => hne (by rw [h2, hh])
      simp [dedupStep, hp, h2, hgf]

/-- Witness for `C10_cleanup_identity`: caller 0's fetch (future 0) settles
and caller 0 cleans up; caller 1 then registers a new fetch (future 1).  The
settled future 0 is no longer the pending entry — the newer fetch is. -/
theorem C10_cleanup_identity_witness :
    (dedupRun DedupState.init
      [DedupEv.arrive 0, DedupEv.settleFut 0, DedupEv.cleanup 0,
        DedupEv.arrive 1]).pending ≠ some 0 :=
  (C10_cleanup_identity [DedupEv.arrive 0, DedupEv.settleFut 0,
    DedupEv.cleanup 0, DedupEv.arrive 1] 0 (by decide)).1 ⟨0, by decide, by decide⟩

/-! ### `discordwelcomebot.py` — `track_clan` (join/leave tracker)

One poll tick of the per-clan tracker loop (lines 693–788), as a pure
function of the clan's tracking state and the polled member list.  The state
is `strict_join_cache[clan_tag]` (`known`), `missing_counts[clan_tag]`
(`counts`) and the `initialized_baseline` membership (`initLogged`).  The
output records the Join and Leave events emitted, each set passed to
`save_strict_cache` (in order), whether the baseline-initialized log message
fired, and whether the tick was skipped by the empty-poll guard.  A member
list is embedded as its list of tags (`current_tags` keeps the first dict
insertion per tag, hence `dedupTags`); Python's set iteration is embedded by
list order. -/

structure TrackState where
  known : List String
  counts : List (String × Nat)
  initLogged : Bool
deriving DecidableEq

structure TickOut where
  state : TrackState
  joins : List String
  leaves : List String
  saves : List (List String)
  baselineLog : Bool
  skipped : Bool
deriving DecidableEq

/-- `missing.get(tag, 0)`. -/
def countsGet (m : List (String × Nat)) (t : String) : Nat :=
  (Assoc.lookup m t).getD 0

def dedupAux (seen : List String) : List String → List String
  | [] => []
  | t :: rest =>
    if seen.contains t then dedupAux seen rest
    else t :: dedupAux (seen ++ [t]) rest

/-- The keys of `current_tags = {m["tag"]: ... for m in member_list}`:
first occurrence of each tag, in list order. -/
def dedupTags (l : List String) : List String := dedupAux [] l

/-- Accumulator of the `for tag in candidate_leaves` loop. -/
structure LeaveAcc where
  known : List String
  counts : List (String × Nat)
  leaves : List String
  saves : List (List String)
deriving DecidableEq

/-- One iteration of the `for tag in candidate_leaves` debounce loop:
increment and store the miss counter; below the threshold do nothing more;
otherwise emit Leave, remove the tag from the known set and persist it if
present, and clear the counter. -/
def leaveStep (threshold : Nat) (acc : LeaveAcc) (t : String) : LeaveAcc :=
  let cnt := countsGet acc.counts t + 1
  let counts1 := Assoc.insert acc.counts t cnt
  if cnt < threshold then { acc with counts := counts1 }
  else
    { known := if acc.known.contains t then acc.known.erase t else acc.known,
      counts := Assoc.pop counts1 t,
      leaves := acc.leaves ++ [t],
      saves :=
        if acc.known.contains t then acc.saves ++ [acc.known.erase t]
        else acc.saves }

/-- `joins = [tag for tag in current_tags if tag not in prev_tags]`. -/
def tickJoins (s : TrackState) (current : List String) : List String :=
  current.filter (fun t => !(s.known.contains t))

/-- The known set after the join loop (`strict_join_cache[clan_tag].add(tag)`
for every join; `prev_tags` aliases this very set object). -/
def tickKnown1 (s : TrackState) (current : List String) : List String :=
  s.known ++ tickJoins s current

/-- The miss counters after the join loop popped each joined tag and the
reset loop popped every tag present in the snapshot. -/
def tickCounts2 (s : TrackState) (current : List String) : List (String × Nat) :=
  ((tickJoins s current).foldl Assoc.pop s.counts).filter
    (fun p => !(current.contains p.1))

/-- `candidate_leaves = [tag for tag in list(prev_tags) if tag not in
current_tag_set]` (on the set as mutated by the join loop). -/
def tickCandidates (s : TrackState) (current : List String) : List String :=
  (tickKnown1 s current).filter (fun t => !(current.contains t))

/-- The state left by the debounce loop, starting from the post-join state
(the join-loop save already recorded when there was a join). -/
def tickAcc (threshold : Nat) (s : TrackState) (current : List String) :
    LeaveAcc :=
  (tickCandidates s current).foldl (leaveStep threshold)
    { known := tickKnown1 s current, counts := tickCounts2 s current,
      leaves := [],
      saves :=
        if (tickJoins s current).isEmpty then []
        else [tickKnown1 s current] }

/-- The non-bootstrap diff part of a tick. -/
def tickDiff (threshold : Nat) (s : TrackState) (current : List String) :
    TickOut :=
  { state :=
      { known := (tickAcc threshold s current).known,
        counts := (tickAcc threshold s current).counts,
        initLogged := s.initLogged },
    joins := tickJoins s current,
    leaves := (tickAcc threshold s current).leaves,
    saves := (tickAcc threshold s current).saves,
    baselineLog := false, skipped := false }

/-- One poll tick of `track_clan`'s `while` body after
`get_clan_member_list` returned `memberList`. -/
def track_clan_tick (skipEmpty : Bool) (threshold : Nat) (s : TrackState)
    (memberList : List String) : TickOut :=
  if memberList.isEmpty && skipEmpty then
    { state := s, joins := [], leaves := [], saves := [],
      baselineLog := false, skipped := true }
  else
    let current := dedupTags memberList
    if s.known.isEmpty then
      { state := { known := current, counts := s.counts, initLogged := true },
        joins := [], leaves := [], saves := [current],
        baselineLog := !s.initLogged, skipped := false }
    else tickDiff threshold s current

/-- A sequence of poll ticks; returns the final state and each tick's output. -/
def runTicks (skipEmpty : Bool) (threshold : Nat) (s : TrackState) :
    List (List String) → TrackState × List TickOut
  | [] => (s, [])
  | ml :: rest =>
    let out := track_clan_tick skipEmpty threshold s ml
    let r := runTicks skipEmpty threshold out.state rest
    (r.1, out :: r.2)

theorem dedupTags_ne_nil (ml : List String) (h : ml ≠ []) : dedupTags ml ≠ [] := by
  cases ml with
  | nil => exact absurd rfl h
  | cons a l => simp [dedupTags, dedupAux]

/-- Claim C7: with empty-result skipping enabled, a tick whose poll returned
an empty roster is discarded entirely — no Join or Leave events, the known
set, miss counters and the one-time log flag are untouched, and nothing is
persisted (`save_strict_cache` is never called), so the persisted state stays
byte-for-byte unchanged. -/
theorem C7_empty_poll_guard (threshold : Nat) (s : TrackState) :
    track_clan_tick true threshold s []
      = { state := s, joins := [], leaves := [], saves := [],
          baselineLog := false, skipped := true } := rfl

/-- Claim C3: when the persisted known-tag set is empty and a poll returns a
non-empty roster, the tracker adopts the deduplicated snapshot as the known
set, emits zero Join events (and no Leaves), and immediately persists exactly
the adopted set. -/
theorem C3_bootstrap (skipEmpty : Bool) (threshold : Nat) (s : TrackState)
    (ml : List String) (hk : s.known = []) (hml : ml ≠ []) :
    track_clan_tick skipEmpty threshold s ml
      = { state :=
            { known := dedupTags ml, counts := s.counts, initLogged := true },
          joins := [], leaves := [], saves := [dedupTags ml],
          baselineLog := !s.initLogged, skipped := false }
  ∧ dedupTags ml ≠ [] := by
  have hne : ml.isEmpty = false := by
    cases ml with
    | nil => exact absurd rfl hml
    | cons a l => rfl
  exact ⟨by simp [track_clan_tick, hne, hk], dedupTags_ne_nil ml hml⟩

/-- Witness for `C3_bootstrap`: persisted set `{}`, poll returns
`{A, B, C}` — zero Joins, the set is adopted and persisted. -/
theorem C3_bootstrap_witness :
    track_clan_tick true 2 { known := [], counts := [], initLogged := false }
      ["A", "B", "C"]
      = { state :=
            { known := ["A", "B", "C"], counts := [], initLogged := true },
          joins := [], leaves := [], saves := [["A", "B", "C"]],
          baselineLog := true, skipped := false } := by
  rw [(C3_bootstrap true 2 { known := [], counts := [], initLogged := false }
    ["A", "B", "C"] rfl (by decide)).1]
  decide

/-- Claim C9, counterexample.  The claim says silent bootstrap happens at
most once per clan per process lifetime.  In the code the one-time flag
`initialized_baseline` only gates the log message, not the adoption: with
the empty-poll guard disabled and debounce threshold 1, polls
`[A]`, `[]`, `[B]` bootstrap on tick 1, debounce member A out on tick 2
(emptying the persisted set), and on tick 3 silently adopt `{B}` again —
zero Join events, no second log. -/
theorem C9_silent_bootstrap_counterexample :
    (runTicks false 1 { known := [], counts := [], initLogged := false }
      [["A"], [], ["B"]]).2.map (fun o => (o.joins, o.leaves, o.state.known))
      = [([], [], ["A"]), ([], ["A"], []), ([], [], ["B"])]
  ∧ (runTicks false 1 { known := [], counts := [], initLogged := false }
      [["A"], [], ["B"]]).2.map (fun o => o.baselineLog)
      = [true, false, false] := by
  decide

/-- Claim C9, amended: silent adoption re-triggers whenever the known set is
empty at the start of a non-skipped tick — a later non-empty snapshot is
again adopted with zero Join events and persisted; what happens at most once
per clan per process lifetime is only the baseline-initialized log message,
gated by `initialized_baseline`. -/
theorem C9_silent_bootstrap_amended (skipEmpty : Bool) (threshold : Nat)
    (s : TrackState) (ml : List String) :
    (s.known = [] → ml ≠ [] →
      (track_clan_tick skipEmpty threshold s ml).joins = []
      ∧ (track_clan_tick skipEmpty threshold s ml).state.known = dedupTags ml
      ∧ (track_clan_tick skipEmpty threshold s ml).saves = [dedupTags ml]
      ∧ (track_clan_tick skipEmpty threshold s ml).baselineLog = !s.initLogged)
  ∧ (s.initLogged = true →
      (track_clan_tick skipEmpty threshold s ml).baselineLog = false
      ∧ (track_clan_tick skipEmpty threshold s ml).state.initLogged = true) := by
  constructor
  · intro hk hml
    have hne : ml.isEmpty = false := by
      cases ml with
      | nil => exact absurd rfl hml
      | cons a l => rfl
    refine ⟨?_, ?_, ?_, ?_⟩ <;> simp [track_clan_tick, hne, hk]
  · intro hlog
    by_cases h1 : (ml.isEmpty && skipEmpty) = true
    · constructor <;> simp [track_clan_tick, h1, hlog]
    · by_cases h2 : s.known.isEmpty
      · constructor <;> simp [track_clan_tick, tickDiff, h1, h2, hlog]
      · constructor <;> simp [track_clan_tick, tickDiff, h1, h2, hlog]

/-- Witness for `C9_silent_bootstrap_amended`: a clan whose log already fired
(`initLogged = true`) and whose known set is empty again adopts `{B}` with
zero Joins and without a second log message. -/
theorem C9_silent_bootstrap_amended_witness :
    (track_clan_tick false 1 { known := [], counts := [], initLogged := true }
      ["B"]).joins = []
  ∧ (track_clan_tick false 1 { known := [], counts := [], initLogged := true }
      ["B"]).baselineLog = false := by
  have h := C9_silent_bootstrap_amended false 1
    { known := [], counts := [], initLogged := true } ["B"]
  exact ⟨(h.1 rfl (by decide)).1, (h.2 rfl).1⟩

/-! ### Support lemmas for the leave-debounce claim -/

theorem contains_iff_mem {l : List String} {t : String} :
    l.contains t = true ↔ t ∈ l := by
  simp [List.contains, List.elem_iff]

theorem mem_dedupAux (l : List String) : ∀ (seen : List String) (t : String),
    t ∈ dedupAux seen l ↔ t ∈ l ∧ t ∉ seen := by
  induction l with
  | nil => intro seen t; simp [dedupAux]
  | cons a rest ih =>
    intro seen t
    by_cases ha : seen.contains a = true
    · rw [dedupAux, if_pos ha, ih]
      constructor
      · rintro ⟨h1, h2⟩
        exact ⟨List.mem_cons_of_mem a h1, h2⟩
      · rintro ⟨h1, h2⟩
        rcases List.mem_cons.mp h1 with rfl | h1
        · exact absurd (contains_iff_mem.mp ha) h2
        · exact ⟨h1, h2⟩
    · rw [dedupAux, if_neg ha, List.mem_cons, ih]
      constructor
      · rintro (hta | ⟨h1, h2⟩)
        · refine ⟨?_, fun hs => ?_⟩
          · rw [hta]
            exact List.mem_cons_self a rest
          · rw [hta] at hs
            exact ha (contains_iff_mem.mpr hs)
        · exact ⟨List.mem_cons_of_mem a h1,
            fun hs => h2 (List.mem_append_left _ hs)⟩
      · rintro ⟨h1, h2⟩
        by_cases hta : t = a
        · exact Or.inl hta
        · rcases List.mem_cons.mp h1 with h1 | h1
          · exact absurd h1 hta
          · right
            refine ⟨h1, fun hs => ?_⟩
            rcases List.mem_append.mp hs with hs | hs
            · exact h2 hs
            · exact hta (by simpa using hs)

theorem nodup_dedupAux (l : List String) : ∀ seen : List String,
    (dedupAux seen l).Nodup := by
  induction l with
  | nil => intro seen; simp [dedupAux]
  | cons a rest ih =>
    intro seen
    by_cases ha : seen.contains a = true
    · rw [dedupAux, if_pos ha]
      exact ih seen
    · rw [dedupAux, if_neg ha, List.nodup_cons]
      refine ⟨fun hm => ?_, ih (seen ++ [a])⟩
      exact ((mem_dedupAux rest (seen ++ [a]) a).mp hm).2
        (List.mem_append_right _ (List.mem_cons_self a []))

theorem mem_dedupTags (l : List String) (t : String) :
    t ∈ dedupTags l ↔ t ∈ l := by
  rw [dedupTags, mem_dedupAux]
  simp

theorem dedupTags_nodup (l : List String) : (dedupTags l).Nodup :=
  nodup_dedupAux l []

theorem foldPop_lookup (js : List String) : ∀ (m : List (String × Nat))
    (t : String), t ∉ js →
    Assoc.lookup (js.foldl Assoc.pop m) t = Assoc.lookup m t := by
  induction js with
  | nil => intro m t _; rfl
  | cons j rest ih =>
    intro m t h
    rw [List.foldl_cons, ih _ t (fun hh => h (List.mem_cons_of_mem j hh))]
    exact Assoc.lookup_pop_ne m j t (fun hh => h (hh ▸ List.mem_cons_self j rest))

theorem foldPop_nodup (js : List String) : ∀ m : List (String × Nat),
    (Assoc.keys m).Nodup → (Assoc.keys (js.foldl Assoc.pop m)).Nodup := by
  induction js with
  | nil => intro m h; exact h
  | cons j rest ih =>
    intro m h
    rw [List.foldl_cons]
    exact ih _ (Assoc.nodup_keys_pop m j h)

theorem leaveStep_eq_below (threshold : Nat) (acc : LeaveAcc) (t : String)
    (hc : countsGet acc.counts t + 1 < threshold) :
    leaveStep threshold acc t
      = { acc with
          counts := Assoc.insert acc.counts t (countsGet acc.counts t + 1) } := by
  simp only [leaveStep]
  rw [if_pos hc]

theorem leaveStep_eq_at (threshold : Nat) (acc : LeaveAcc) (t : String)
    (hc : ¬(countsGet acc.counts t + 1 < threshold)) :
    leaveStep threshold acc t
      = { known := if acc.known.contains t then acc.known.erase t else acc.known,
          counts :=
            Assoc.pop (Assoc.insert acc.counts t (countsGet acc.counts t + 1)) t,
          leaves := acc.leaves ++ [t],
          saves :=
            if acc.known.contains t then acc.saves ++ [acc.known.erase t]
            else acc.saves } := by
  simp only [leaveStep]
  rw [if_neg hc]

theorem leaveStep_counts_ne (threshold : Nat) (acc : LeaveAcc) (u t : String)
    (h : u ≠ t) :
    Assoc.lookup (leaveStep threshold acc u).counts t
      = Assoc.lookup acc.counts t := by
  by_cases hc : countsGet acc.counts u + 1 < threshold
  · rw [leaveStep_eq_below threshold acc u hc]
    exact Assoc.lookup_insert_ne acc.counts u t _ (Ne.symm h)
  · rw [leaveStep_eq_at threshold acc u hc]
    show Assoc.lookup (Assoc.pop (Assoc.insert acc.counts u _) u) t = _
    rw [Assoc.lookup_pop_ne _ u t (Ne.symm h)]
    exact Assoc.lookup_insert_ne acc.counts u t _ (Ne.symm h)

theorem leaveStep_known_mem_ne (threshold : Nat) (acc : LeaveAcc) (u t : String)
    (h : u ≠ t) :
    (t ∈ (leaveStep threshold acc u).known ↔ t ∈ acc.known) := by
  by_cases hc : countsGet acc.counts u + 1 < threshold
  · rw [leaveStep_eq_below threshold acc u hc]
  · rw [leaveStep_eq_at threshold acc u hc]
    show t ∈ (if acc.known.contains u then acc.known.erase u else acc.known) ↔ _
    by_cases hk : acc.known.contains u = true
    · rw [if_pos hk]
      exact List.mem_erase_of_ne (Ne.symm h)
    · rw [if_neg hk]

theorem leaveStep_leaves_eq (threshold : Nat) (acc : LeaveAcc) (u : String) :
    (leaveStep threshold acc u).leaves
      = if countsGet acc.counts u + 1 < threshold then acc.leaves
        else acc.leaves ++ [u] := by
  by_cases hc : countsGet acc.counts u + 1 < threshold
  · rw [leaveStep_eq_below threshold acc u hc, if_pos hc]
  · rw [leaveStep_eq_at threshold acc u hc, if_neg hc]

theorem leaveStep_known_nodup (threshold : Nat) (acc : LeaveAcc) (u : String)
    (h : acc.known.Nodup) : (leaveStep threshold acc u).known.Nodup := by
  by_cases hc : countsGet acc.counts u + 1 < threshold
  · rw [leaveStep_eq_below threshold acc u hc]
    exact h
  · rw [leaveStep_eq_at threshold acc u hc]
    show (if acc.known.contains u then acc.known.erase u else acc.known).Nodup
    by_cases hk : acc.known.contains u = true
    · rw [if_pos hk]
      exact h.erase u
    · rw [if_neg hk]
      exact h

theorem leaveStep_counts_nodup (threshold : Nat) (acc : LeaveAcc) (u : String)
    (h : (Assoc.keys acc.counts).Nodup) :
    (Assoc.keys (leaveStep threshold acc u).counts).Nodup := by
  by_cases hc : countsGet acc.counts u + 1 < threshold
  · rw [leaveStep_eq_below threshold acc u hc]
    exact Assoc.nodup_keys_insert _ u _ h
  · rw [leaveStep_eq_at threshold acc u hc]
    exact Assoc.nodup_keys_pop _ u (Assoc.nodup_keys_insert _ u _ h)

theorem foldLeave_leaves (threshold : Nat) (cs : List String) :
    ∀ acc : LeaveAcc, cs.Nodup →
    (cs.foldl (leaveStep threshold) acc).leaves
      = acc.leaves
        ++ cs.filter (fun u => decide (threshold ≤ countsGet acc.counts u + 1)) := by
  induction cs with
  | nil => intro acc _; simp
  | cons c rest ih =>
    intro acc hnd
    have hnd' := List.nodup_cons.mp hnd
    rw [List.foldl_cons, ih (leaveStep threshold acc c) hnd'.2]
    have hfilter : rest.filter
        (fun u => decide (threshold ≤ countsGet (leaveStep threshold acc c).counts u + 1))
        = rest.filter (fun u => decide (threshold ≤ countsGet acc.counts u + 1)) := by
      apply List.filter_congr
      intro u hu
      have hne : c ≠ u := fun hh => hnd'.1 (hh ▸ hu)
      simp only [countsGet, leaveStep_counts_ne threshold acc c u hne]
    rw [hfilter, List.filter_cons, leaveStep_leaves_eq threshold acc c]
    by_cases hc : countsGet acc.counts c + 1 < threshold
    · have hpc : ¬(threshold ≤ countsGet acc.counts c + 1) := by omega
      simp [hc, hpc]
    · have hpc : threshold ≤ countsGet acc.counts c + 1 := by omega
      simp [hc, hpc]

theorem foldLeave_counts (threshold : Nat) (cs : List String) :
    ∀ (acc : LeaveAcc) (t : String), cs.Nodup → (Assoc.keys acc.counts).Nodup →
    countsGet (cs.foldl (leaveStep threshold) acc).counts t
      = if t ∈ cs then
          (if countsGet acc.counts t + 1 < threshold
           then countsGet acc.counts t + 1 else 0)
        else countsGet acc.counts t := by
  induction cs with
  | nil => intro acc t _ _; simp
  | cons c rest ih =>
    intro acc t hnd hcn
    have hnd' := List.nodup_cons.mp hnd
    rw [List.foldl_cons, ih (leaveStep threshold acc c) t hnd'.2
      (leaveStep_counts_nodup threshold acc c hcn)]
    by_cases hct : c = t
    · subst hct
      have htr : c ∉ rest := hnd'.1
      rw [if_neg htr, if_pos (List.mem_cons_self c rest)]
      by_cases hc : countsGet acc.counts c + 1 < threshold
      · rw [leaveStep_eq_below threshold acc c hc]
        show countsGet
          (Assoc.insert acc.counts c (countsGet acc.counts c + 1)) c = _
        rw [countsGet, Assoc.lookup_insert_self]
        simp [hc]
      · rw [leaveStep_eq_at threshold acc c hc]
        show countsGet (Assoc.pop
          (Assoc.insert acc.counts c (countsGet acc.counts c + 1)) c) c = _
        rw [countsGet,
          Assoc.lookup_pop_self _ c (Assoc.nodup_keys_insert _ c _ hcn)]
        simp [hc]
    · have hcc : countsGet (leaveStep threshold acc c).counts t
          = countsGet acc.counts t := by
        rw [countsGet, leaveStep_counts_ne threshold acc c t hct, countsGet]
      rw [hcc]
      by_cases htr : t ∈ rest
      · rw [if_pos htr, if_pos (List.mem_cons_of_mem c htr)]
      · have hnm : t ∉ c :: rest := by
          intro hm
          rcases List.mem_cons.mp hm with hm | hm
          · exact hct hm.symm
          · exact htr hm
        rw [if_neg htr, if_neg hnm]

theorem foldLeave_known_frame (threshold : Nat) (cs : List String) :
    ∀ (acc : LeaveAcc) (t : String), t ∉ cs →
    (t ∈ (cs.foldl (leaveStep threshold) acc).known ↔ t ∈ acc.known) := by
  induction cs with
  | nil => intro acc t _; exact Iff.rfl
  | cons c rest ih =>
    intro acc t h
    rw [List.foldl_cons,
      ih (leaveStep threshold acc c) t (fun hh => h (List.mem_cons_of_mem c hh))]
    exact leaveStep_known_mem_ne threshold acc c t
      (fun hh => h (hh ▸ List.mem_cons_self c rest))

theorem foldLeave_known_mem (threshold : Nat) (cs : List String) :
    ∀ (acc : LeaveAcc) (t : String), cs.Nodup → acc.known.Nodup →
    (t ∈ (cs.foldl (leaveStep threshold) acc).known
      ↔ t ∈ acc.known ∧ ¬(t ∈ cs ∧ threshold ≤ countsGet acc.counts t + 1)) := by
  induction cs with
  | nil => intro acc t _ _; simp
  | cons c rest ih =>
    intro acc t hnd hka
    have hnd' := List.nodup_cons.mp hnd
    rw [List.foldl_cons, ih (leaveStep threshold acc c) t hnd'.2
      (leaveStep_known_nodup threshold acc c hka)]
    by_cases hct : c = t
    · subst hct
      have htr : c ∉ rest := hnd'.1
      by_cases hc : countsGet acc.counts c + 1 < threshold
      · rw [leaveStep_eq_below threshold acc c hc]
        constructor
        · rintro ⟨h1, _⟩
          exact ⟨h1, fun hcon => absurd hcon.2 (by omega)⟩
        · rintro ⟨h1, _⟩
          exact ⟨h1, fun hcon => htr hcon.1⟩
      · rw [leaveStep_eq_at threshold acc c hc]
        constructor
        · rintro ⟨h1, _⟩
          exfalso
          have h1' : c ∈ (if acc.known.contains c then acc.known.erase c
              else acc.known) := h1
          by_cases hk : acc.known.contains c = true
          · rw [if_pos hk] at h1'
            exact (hka.mem_erase_iff.mp h1').1 rfl
          · rw [if_neg hk] at h1'
            exact hk (contains_iff_mem.mpr h1')
        · rintro ⟨h1, h2⟩
          exact absurd ⟨List.mem_cons_self c rest, by omega⟩ h2
    · have hmem := leaveStep_known_mem_ne threshold acc c t hct
      have hcnt : countsGet (leaveStep threshold acc c).counts t
          = countsGet acc.counts t := by
        rw [countsGet, leaveStep_counts_ne threshold acc c t hct, countsGet]
      rw [hmem, hcnt]
      have hcons : (t ∈ c :: rest) ↔ t ∈ rest := by
        rw [List.mem_cons]
        constructor
        · rintro (h1 | h1)
          · exact absurd h1.symm hct
          · exact h1
        · exact Or.inr
      rw [hcons]

theorem leaveStep_saves_last (threshold : Nat) (acc : LeaveAcc) (u : String)
    (h : acc.saves.getLast? = some acc.known) :
    (leaveStep threshold acc u).saves.getLast?
      = some (leaveStep threshold acc u).known := by
  by_cases hc : countsGet acc.counts u + 1 < threshold
  · rw [leaveStep_eq_below threshold acc u hc]
    exact h
  · rw [leaveStep_eq_at threshold acc u hc]
    show (if acc.known.contains u then acc.saves ++ [acc.known.erase u]
        else acc.saves).getLast?
      = some (if acc.known.contains u then acc.known.erase u else acc.known)
    by_cases hk : acc.known.contains u = true
    · rw [if_pos hk, if_pos hk, List.getLast?_concat]
    · rw [if_neg hk, if_neg hk]
      exact h

theorem foldLeave_saves_keep (threshold : Nat) (cs : List String) :
    ∀ acc : LeaveAcc, acc.saves.getLast? = some acc.known →
    (cs.foldl (leaveStep threshold) acc).saves.getLast?
      = some (cs.foldl (leaveStep threshold) acc).known := by
  induction cs with
  | nil => intro acc h; exact h
  | cons c rest ih =>
    intro acc h
    rw [List.foldl_cons]
    exact ih _ (leaveStep_saves_last threshold acc c h)

theorem foldLeave_saves_of_leave (threshold : Nat) (cs : List String) :
    ∀ (acc : LeaveAcc) (u : String), cs.Nodup → u ∈ cs →
    threshold ≤ countsGet acc.counts u + 1 → u ∈ acc.known →
    (cs.foldl (leaveStep threshold) acc).saves.getLast?
      = some (cs.foldl (leaveStep threshold) acc).known := by
  induction cs with
  | nil =>
    intro acc u _ hu
    cases hu
  | cons c rest ih =>
    intro acc u hnd hu htr hm
    have hnd' := List.nodup_cons.mp hnd
    rw [List.foldl_cons]
    rcases List.mem_cons.mp hu with he | hr
    · subst he
      apply foldLeave_saves_keep
      have hc : ¬(countsGet acc.counts u + 1 < threshold) := by omega
      rw [leaveStep_eq_at threshold acc u hc]
      have hk : acc.known.contains u = true := contains_iff_mem.mpr hm
      show (if acc.known.contains u then acc.saves ++ [acc.known.erase u]
          else acc.saves).getLast?
        = some (if acc.known.contains u then acc.known.erase u else acc.known)
      rw [if_pos hk, if_pos hk, List.getLast?_concat]
    · have hne : c ≠ u := fun hh => hnd'.1 (hh ▸ hr)
      apply ih (leaveStep threshold acc c) u hnd'.2 hr
      · rw [countsGet, leaveStep_counts_ne threshold acc c u hne, ← countsGet]
        exact htr
      · exact (leaveStep_known_mem_ne threshold acc c u hne).mpr hm

theorem not_contains_iff {l : List String} {t : String} :
    (!(l.contains t)) = true ↔ t ∉ l := by
  cases hb : l.contains t
  · exact iff_of_true rfl
      (fun hm => by rw [contains_iff_mem.mpr hm] at hb; cases hb)
  · exact iff_of_false (by simp) (fun hn => hn (contains_iff_mem.mp hb))

theorem mem_tickJoins (s : TrackState) (current : List String) (t : String) :
    t ∈ tickJoins s current ↔ t ∈ current ∧ t ∉ s.known := by
  simp only [tickJoins, List.mem_filter, not_contains_iff]

theorem mem_tickCandidates (s : TrackState) (current : List String)
    (t : String) :
    t ∈ tickCandidates s current ↔ t ∈ tickKnown1 s current ∧ t ∉ current := by
  simp only [tickCandidates, List.mem_filter, not_contains_iff]

theorem tickCounts2_absent (s : TrackState) (current : List String) (t : String)
    (h : t ∉ current) :
    countsGet (tickCounts2 s current) t = countsGet s.counts t := by
  rw [tickCounts2, countsGet,
    Assoc.lookup_filter_pos _ _ t (fun b => not_contains_iff.mpr h),
    foldPop_lookup _ _ t (fun hm => h ((mem_tickJoins s current t).mp hm).1),
    countsGet]

theorem tickCounts2_present (s : TrackState) (current : List String)
    (t : String) (h : t ∈ current) :
    countsGet (tickCounts2 s current) t = 0 := by
  rw [tickCounts2, countsGet, Assoc.lookup_filter_neg _ _ t
    (fun b => by rw [show current.contains t = true from contains_iff_mem.mpr h]; rfl)]
  rfl

theorem tickKnown1_nodup (s : TrackState) (current : List String)
    (h : s.known.Nodup) (hc : current.Nodup) :
    (tickKnown1 s current).Nodup := by
  rw [tickKnown1, List.nodup_append]
  refine ⟨h, hc.filter _, ?_⟩
  intro a ha haj
  exact ((mem_tickJoins s current a).mp haj).2 ha

theorem tickCandidates_nodup (s : TrackState) (current : List String)
    (h : s.known.Nodup) (hc : current.Nodup) :
    (tickCandidates s current).Nodup :=
  (tickKnown1_nodup s current h hc).filter _

theorem tickCounts2_nodup (s : TrackState) (current : List String)
    (h : (Assoc.keys s.counts).Nodup) :
    (Assoc.keys (tickCounts2 s current)).Nodup :=
  Assoc.nodup_keys_filter _ _ (foldPop_nodup _ _ h)

theorem mem_known_of_candidate (s : TrackState) (current : List String)
    (t : String) (h : t ∈ tickCandidates s current) : t ∈ s.known := by
  obtain ⟨h1, h2⟩ := (mem_tickCandidates s current t).mp h
  rcases List.mem_append.mp h1 with h1 | h1
  · exact h1
  · exact absurd ((mem_tickJoins s current t).mp h1).1 h2

/-- The non-bootstrap tick characterized per tag: the debounce properties of
claim C2 on the diff part. -/
theorem tickDiff_debounce (threshold : Nat) (s : TrackState)
    (current : List String) (t : String) (hndk : s.known.Nodup)
    (hndc : (Assoc.keys s.counts).Nodup) (hndcur : current.Nodup) :
    (t ∈ s.known → t ∉ current → countsGet s.counts t + 1 < threshold →
      countsGet (tickDiff threshold s current).state.counts t
        = countsGet s.counts t + 1
      ∧ t ∉ (tickDiff threshold s current).leaves
      ∧ t ∈ (tickDiff threshold s current).state.known)
  ∧ (t ∈ s.known → t ∉ current → threshold ≤ countsGet s.counts t + 1 →
      (tickDiff threshold s current).leaves.count t = 1
      ∧ t ∉ (tickDiff threshold s current).state.known
      ∧ countsGet (tickDiff threshold s current).state.counts t = 0
      ∧ (tickDiff threshold s current).saves.getLast?
          = some (tickDiff threshold s current).state.known)
  ∧ (t ∈ current → countsGet (tickDiff threshold s current).state.counts t = 0)
  ∧ (t ∈ (tickDiff threshold s current).leaves →
      t ∈ s.known ∧ t ∉ current ∧ threshold ≤ countsGet s.counts t + 1) := by
  have hnd_cs : (tickCandidates s current).Nodup :=
    tickCandidates_nodup s current hndk hndcur
  have hnd_k1 : (tickKnown1 s current).Nodup :=
    tickKnown1_nodup s current hndk hndcur
  have hnd_c2 : (Assoc.keys (tickCounts2 s current)).Nodup :=
    tickCounts2_nodup s current hndc
  refine ⟨fun hk1 hc1 hlt => ?_, fun hk1 hc1 hge => ?_, fun hcur => ?_,
    fun hlv => ?_⟩
  · have htc : t ∈ tickCandidates s current :=
      (mem_tickCandidates s current t).mpr
        ⟨List.mem_append_left _ hk1, hc1⟩
    have hcnt2 : countsGet (tickCounts2 s current) t = countsGet s.counts t :=
      tickCounts2_absent s current t hc1
    refine ⟨?_, ?_, ?_⟩
    · show countsGet ((tickCandidates s current).foldl (leaveStep threshold) _).counts t = _
      rw [foldLeave_counts threshold (tickCandidates s current) _ t hnd_cs hnd_c2]
      show (if t ∈ tickCandidates s current then _ else _) = _
      rw [if_pos htc]
      show (if countsGet (tickCounts2 s current) t + 1 < threshold then _ else _) = _
      rw [hcnt2, if_pos hlt]
    · intro hm
      have hm' : t ∈ ((tickCandidates s current).foldl (leaveStep threshold)
          { known := tickKnown1 s current, counts := tickCounts2 s current,
            leaves := [],
            saves :=
              if (tickJoins s current).isEmpty then []
              else [tickKnown1 s current] }).leaves := hm
      rw [foldLeave_leaves threshold (tickCandidates s current) _ hnd_cs] at hm'
      rw [List.nil_append] at hm'
      have := (List.mem_filter.mp hm').2
      have hle : threshold ≤ countsGet (tickCounts2 s current) t + 1 :=
        of_decide_eq_true this
      rw [hcnt2] at hle
      omega
    · show t ∈ ((tickCandidates s current).foldl (leaveStep threshold) _).known
      rw [foldLeave_known_mem threshold (tickCandidates s current) _ t hnd_cs hnd_k1]
      refine ⟨List.mem_append_left _ hk1, fun hcon => ?_⟩
      have := hcon.2
      show False
      have h2' : countsGet (tickCounts2 s current) t = countsGet s.counts t := hcnt2
      rw [h2'] at this
      omega
  · have htc : t ∈ tickCandidates s current :=
      (mem_tickCandidates s current t).mpr
        ⟨List.mem_append_left _ hk1, hc1⟩
    have hcnt2 : countsGet (tickCounts2 s current) t = countsGet s.counts t :=
      tickCounts2_absent s current t hc1
    refine ⟨?_, ?_, ?_, ?_⟩
    · show (((tickCandidates s current).foldl (leaveStep threshold) _).leaves).count t = 1
      rw [foldLeave_leaves threshold (tickCandidates s current) _ hnd_cs,
        List.nil_append]
      refine List.count_eq_one_of_mem (hnd_cs.filter _) ?_
      refine List.mem_filter.mpr ⟨htc, ?_⟩
      refine decide_eq_true ?_
      show threshold ≤ countsGet (tickCounts2 s current) t + 1
      rw [hcnt2]
      exact hge
    · intro hm
      have hm' : t ∈ ((tickCandidates s current).foldl (leaveStep threshold)
          { known := tickKnown1 s current, counts := tickCounts2 s current,
            leaves := [],
            saves :=
              if (tickJoins s current).isEmpty then []
              else [tickKnown1 s current] }).known := hm
      rw [foldLeave_known_mem threshold (tickCandidates s current) _ t hnd_cs hnd_k1] at hm'
      refine hm'.2 ⟨htc, ?_⟩
      show threshold ≤ countsGet (tickCounts2 s current) t + 1
      rw [hcnt2]
      exact hge
    · show countsGet ((tickCandidates s current).foldl (leaveStep threshold) _).counts t = 0
      rw [foldLeave_counts threshold (tickCandidates s current) _ t hnd_cs hnd_c2]
      show (if t ∈ tickCandidates s current then _ else _) = _
      rw [if_pos htc]
      show (if countsGet (tickCounts2 s current) t + 1 < threshold then _ else _) = _
      rw [hcnt2, if_neg (by omega)]
    · show (((tickCandidates s current).foldl (leaveStep threshold) _).saves).getLast?
        = some (((tickCandidates s current).foldl (leaveStep threshold) _).known)
      apply foldLeave_saves_of_leave threshold (tickCandidates s current) _ t
        hnd_cs htc
      · show threshold ≤ countsGet (tickCounts2 s current) t + 1
        rw [hcnt2]
        exact hge
      · exact List.mem_append_left _ hk1
  · have htnc : t ∉ tickCandidates s current :=
      fun hm => ((mem_tickCandidates s current t).mp hm).2 hcur
    show countsGet ((tickCandidates s current).foldl (leaveStep threshold) _).counts t = 0
    rw [foldLeave_counts threshold (tickCandidates s current) _ t hnd_cs hnd_c2]
    show (if t ∈ tickCandidates s current then _ else _) = _
    rw [if_neg htnc]
    exact tickCounts2_present s current t hcur
  · have hm' : t ∈ ((tickCandidates s current).foldl (leaveStep threshold)
        { known := tickKnown1 s current, counts := tickCounts2 s current,
          leaves := [],
          saves :=
            if (tickJoins s current).isEmpty then []
            else [tickKnown1 s current] }).leaves := hlv
    rw [foldLeave_leaves threshold (tickCandidates s current) _ hnd_cs,
      List.nil_append] at hm'
    obtain ⟨htc, hpred⟩ := List.mem_filter.mp hm'
    have hnc : t ∉ current := ((mem_tickCandidates s current t).mp htc).2
    have hle : threshold ≤ countsGet (tickCounts2 s current) t + 1 :=
      of_decide_eq_true hpred
    rw [tickCounts2_absent s current t hnc] at hle
    exact ⟨mem_known_of_candidate s current t htc, hnc, hle⟩

theorem track_clan_tick_diff (skipEmpty : Bool) (threshold : Nat)
    (s : TrackState) (ml : List String) (hml : ml ≠ []) (hk : s.known ≠ []) :
    track_clan_tick skipEmpty threshold s ml
      = tickDiff threshold s (dedupTags ml) := by
  have hne : ml.isEmpty = false := by
    cases ml with
    | nil => exact absurd rfl hml
    | cons a l => rfl
  have hkne : s.known.isEmpty = false := by
    rcases h : s.known with _ | ⟨a, l⟩
    · exact absurd h hk
    · rfl
  simp [track_clan_tick, hne, hkne]

/-- Claim C2: per tick (non-bootstrap, non-skipped), a tag in the persisted
known set but absent from the snapshot has its miss counter incremented; a
Leave fires only when the incremented counter reaches the debounce threshold,
and then exactly one Leave is emitted for the tag, the tag is removed from
the known set, its counter is cleared, and the updated set is persisted (the
final known set is the last set saved); counters of tags present in the
snapshot are reset.  Concretely with threshold 2 and persisted `{A, B}`:
polls `{A}` then `{A, B}` emit no Leave and reset B's counter; polls `{A}`
then `{A}` emit exactly one `Leave(B)` after the second poll, leaving the
persisted set `{A}`. -/
theorem C2_leave_debounce (skipEmpty : Bool) (threshold : Nat) (s : TrackState)
    (ml : List String) (t : String) (hml : ml ≠ []) (hk : s.known ≠ [])
    (hndk : s.known.Nodup) (hndc : (Assoc.keys s.counts).Nodup) :
    ((t ∈ s.known → t ∉ ml → countsGet s.counts t + 1 < threshold →
        countsGet (track_clan_tick skipEmpty threshold s ml).state.counts t
          = countsGet s.counts t + 1
        ∧ t ∉ (track_clan_tick skipEmpty threshold s ml).leaves
        ∧ t ∈ (track_clan_tick skipEmpty threshold s ml).state.known)
     ∧ (t ∈ s.known → t ∉ ml → threshold ≤ countsGet s.counts t + 1 →
        (track_clan_tick skipEmpty threshold s ml).leaves.count t = 1
        ∧ t ∉ (track_clan_tick skipEmpty threshold s ml).state.known
        ∧ countsGet (track_clan_tick skipEmpty threshold s ml).state.counts t
            = 0
        ∧ (track_clan_tick skipEmpty threshold s ml).saves.getLast?
            = some (track_clan_tick skipEmpty threshold s ml).state.known)
     ∧ (t ∈ ml →
        countsGet (track_clan_tick skipEmpty threshold s ml).state.counts t = 0)
     ∧ (t ∈ (track_clan_tick skipEmpty threshold s ml).leaves →
        t ∈ s.known ∧ t ∉ ml ∧ threshold ≤ countsGet s.counts t + 1))
  ∧ (runTicks true 2 { known := ["A", "B"], counts := [], initLogged := true }
      [["A"], ["A", "B"]]).2.map (fun o => (o.leaves, o.state.counts))
      = [([], [("B", 1)]), ([], [])]
  ∧ (runTicks true 2 { known := ["A", "B"], counts := [], initLogged := true }
      [["A"], ["A"]]).2.map (fun o => (o.leaves, o.state.known))
      = [([], ["A", "B"]), (["B"], ["A"])] := by
  refine ⟨?_, by decide, by decide⟩
  rw [track_clan_tick_diff skipEmpty threshold s ml hml hk]
  have h := tickDiff_debounce threshold s (dedupTags ml) t hndk hndc
    (dedupTags_nodup ml)
  refine ⟨fun h1 h2 h3 => h.1 h1 (fun hm => h2 ((mem_dedupTags ml t).mp hm)) h3,
    fun h1 h2 h3 => h.2.1 h1 (fun hm => h2 ((mem_dedupTags ml t).mp hm)) h3,
    fun h1 => h.2.2.1 ((mem_dedupTags ml t).mpr h1),
    fun h1 => ?_⟩
  obtain ⟨ha, hb, hc⟩ := h.2.2.2 h1
  exact ⟨ha, fun hm => hb ((mem_dedupTags ml t).mpr hm), hc⟩

/-- Witness for `C2_leave_debounce`: threshold 2, persisted `{A, B}`, poll
`{A}` — B's counter becomes 1, no Leave fires, B stays in the known set. -/
theorem C2_leave_debounce_witness :
    countsGet (track_clan_tick true 2
      { known := ["A", "B"], counts := [], initLogged := true }
      ["A"]).state.counts "B" = countsGet [] "B" + 1
  ∧ "B" ∉ (track_clan_tick true 2
      { known := ["A", "B"], counts := [], initLogged := true } ["A"]).leaves
  ∧ "B" ∈ (track_clan_tick true 2
      { known := ["A", "B"], counts := [], initLogged := true }
      ["A"]).state.known := by
  exact (C2_leave_debounce true 2
    { known := ["A", "B"], counts := [], initLogged := true } ["A"] "B"
    (by decide) (by decide) (by decide) (by decide)).1.1
    (by decide) (by decide) (by decide)

/-! ### `donations.py` — `calculate_monthly_donations`

A snapshot (one per month, keyed `YYYY-MM`) records per member the seasonal
donation counter and the lifetime achievement totals; only the fields the
delta uses are embedded (`timestamp` is write-only metadata).  The "note"
key returned for a first snapshot is embedded as the `firstSnapshot` flag. -/

structure MemberEntry where
  name : String
  seasonal : Int
  lifetime : List (String × Int)
deriving DecidableEq

structure Snapshot where
  date : String
  members : List (String × MemberEntry)
deriving DecidableEq

structure MonthlyMember where
  name : String
  monthly : Int
  seasonal : Int
  lifetime : List (String × Int)
deriving DecidableEq

structure MonthlyOut where
  month : String
  members : List (String × MonthlyMember)
  total : Int
  firstSnapshot : Bool
deriving DecidableEq

/-- Python string comparison: lexicographic on code points. -/
def charListLe : List Char → List Char → Bool
  | [], _ => true
  | _ :: _, [] => false
  | a :: as, b :: bs =>
    if a.toNat < b.toNat then true
    else if b.toNat < a.toNat then false
    else charListLe as bs

def strLe (a b : String) : Bool := charListLe a.data b.data

/-- Stable insertion sort by date — pointwise equal to Python's stable
`sorted(clan_snapshots, key=lambda x: x.get("date", ""))`. -/
def orderedInsertSnap (x : Snapshot) : List Snapshot → List Snapshot
  | [] => [x]
  | y :: rest =>
    if strLe x.date y.date then x :: y :: rest
    else y :: orderedInsertSnap x rest

def sortSnaps : List Snapshot → List Snapshot
  | [] => []
  | x :: rest => orderedInsertSnap x (sortSnaps rest)

/-- `next((s for s in clan_snapshots if s.get("date") == month_key), None)`. -/
def findSnap (p : Snapshot → Bool) : List Snapshot → Option Snapshot
  | [] => none
  | x :: rest => if p x then some x else findSnap p rest

/-- `next((i for i, s in enumerate(sorted_snapshots) if ...), None)`. -/
def findIdxFrom (p : Snapshot → Bool) (k : Nat) : List Snapshot → Option Nat
  | [] => none
  | x :: rest => if p x then some k else findIdxFrom p (k + 1) rest

/-- Per-member monthly figure: `max(0, target_seasonal - prev_seasonal)` when
the member has previous data (`if prev_data:`), else the current seasonal
counter.  (A member entry is never the empty dict, so Python's truthiness
test is presence.) -/
def calcMemberMonthly (prevMembers : List (String × MemberEntry)) (tag : String)
    (e : MemberEntry) : MonthlyMember :=
  match Assoc.lookup prevMembers tag with
  | some p =>
    { name := e.name, monthly := max 0 (e.seasonal - p.seasonal),
      seasonal := e.seasonal, lifetime := e.lifetime }
  | none =>
    { name := e.name, monthly := e.seasonal, seasonal := e.seasonal,
      lifetime := e.lifetime }

/-- `calculate_monthly_donations(clan_tag, month_key)` for the clan's
snapshot list. -/
def calculate_monthly_donations (snaps : List Snapshot) (monthKey : String) :
    Option MonthlyOut :=
  if snaps.isEmpty then none
  else
    match findSnap (fun s => s.date == monthKey) snaps with
    | none => none
    | some target =>
      let sorted := sortSnaps snaps
      match findIdxFrom (fun s => s.date == monthKey) 0 sorted with
      | none =>
        some { month := monthKey, members := [], total := 0,
               firstSnapshot := true }
      | some i =>
        if i = 0 then
          some { month := monthKey, members := [], total := 0,
                 firstSnapshot := true }
        else
          match sorted.get? (i - 1) with
          | none => none
          | some prev =>
            some { month := monthKey,
                   members := target.members.foldl
                     (fun acc p =>
                       Assoc.insert acc p.1 (calcMemberMonthly prev.members p.1 p.2))
                     [],
                   total := target.members.foldl
                     (fun tot p =>
                       tot + (calcMemberMonthly prev.members p.1 p.2).monthly) 0,
                   firstSnapshot := false }

theorem orderedInsertSnap_perm (x : Snapshot) (l : List Snapshot) :
    (orderedInsertSnap x l).Perm (x :: l) := by
  induction l with
  | nil => exact List.Perm.refl _
  | cons y rest ih =>
    rw [orderedInsertSnap]
    by_cases h : strLe x.date y.date = true
    · rw [if_pos h]
    · rw [if_neg h]
      exact (List.Perm.cons y ih).trans (List.Perm.swap x y rest)

theorem sortSnaps_perm (l : List Snapshot) : (sortSnaps l).Perm l := by
  induction l with
  | nil => exact List.Perm.refl _
  | cons x rest ih =>
    rw [sortSnaps]
    exact (orderedInsertSnap_perm x (sortSnaps rest)).trans (List.Perm.cons x ih)

theorem eq_of_nodup_dates :
    ∀ (l : List Snapshot), (l.map Snapshot.date).Nodup →
    ∀ a b : Snapshot, a ∈ l → b ∈ l → a.date = b.date → a = b := by
  intro l
  induction l with
  | nil =>
    intro _ a b ha
    cases ha
  | cons x rest ih =>
    intro hnd a b ha hb hd
    rw [List.map_cons, List.nodup_cons] at hnd
    rcases List.mem_cons.mp ha with ha' | ha'
    · rcases List.mem_cons.mp hb with hb' | hb'
      · rw [ha', hb']
      · refine absurd ?_ hnd.1
        rw [← ha', hd]
        exact List.mem_map_of_mem Snapshot.date hb'
    · rcases List.mem_cons.mp hb with hb' | hb'
      · refine absurd ?_ hnd.1
        rw [← hb', ← hd]
        exact List.mem_map_of_mem Snapshot.date ha'
      · exact ih hnd.2 a b ha' hb' hd

theorem findSnap_eq (p : Snapshot → Bool) (x : Snapshot) :
    ∀ l : List Snapshot, x ∈ l → p x = true →
    (∀ y ∈ l, p y = true → y = x) → findSnap p l = some x := by
  intro l
  induction l with
  | nil =>
    intro hx
    cases hx
  | cons a rest ih =>
    intro hx hpx huniq
    rw [findSnap]
    by_cases hpa : p a = true
    · rw [if_pos hpa, huniq a (List.mem_cons_self a rest) hpa]
    · rw [if_neg hpa]
      rcases List.mem_cons.mp hx with rfl | hx
      · exact absurd hpx hpa
      · exact ih hx hpx (fun y hy hpy => huniq y (List.mem_cons_of_mem a hy) hpy)

theorem findIdxFrom_eq (p : Snapshot → Bool) (x : Snapshot) :
    ∀ (l : List Snapshot) (i k : Nat), l.get? i = some x → p x = true →
    (∀ j, j < i → ∀ y, l.get? j = some y → p y = false) →
    findIdxFrom p k l = some (k + i) := by
  intro l
  induction l with
  | nil =>
    intro i k h
    simp at h
  | cons a rest ih =>
    intro i k hget hpx hlt
    cases i with
    | zero =>
      rw [List.get?_cons_zero] at hget
      have ha : a = x := Option.some.inj hget
      rw [findIdxFrom, if_pos (by rw [ha]; exact hpx), Nat.add_zero]
    | succ i' =>
      have hpa : p a = false :=
        hlt 0 (Nat.succ_pos i') a List.get?_cons_zero
      rw [findIdxFrom, if_neg (by rw [hpa]; exact Bool.false_ne_true)]
      rw [List.get?_cons_succ] at hget
      rw [ih i' (k + 1) hget hpx
        (fun j hj y hy => hlt (j + 1) (Nat.succ_lt_succ hj) y
          (by rw [List.get?_cons_succ]; exact hy))]
      congr 1
      omega

theorem foldInsert_eq_append (f : String → MemberEntry → MonthlyMember) :
    ∀ (l : List (String × MemberEntry)) (acc : List (String × MonthlyMember)),
    (l.map Prod.fst).Nodup →
    (∀ p ∈ l, Assoc.lookup acc p.1 = none) →
    l.foldl (fun acc q => Assoc.insert acc q.1 (f q.1 q.2)) acc
      = acc ++ l.map (fun q => (q.1, f q.1 q.2)) := by
  intro l
  induction l with
  | nil =>
    intro acc _ _
    simp
  | cons p rest ih =>
    intro acc hnd hfresh
    rw [List.map_cons, List.nodup_cons] at hnd
    rw [List.foldl_cons,
      Assoc.insert_eq_append acc p.1 _ (hfresh p (List.mem_cons_self p rest)),
      ih (acc ++ [(p.1, f p.1 p.2)]) hnd.2 ?_]
    · rw [List.map_cons, List.append_assoc, List.singleton_append]
    · intro q hq
      apply Assoc.lookup_append_none
      · exact hfresh q (List.mem_cons_of_mem p hq)
      · have hne : p.1 ≠ q.1 := by
          intro hh
          exact hnd.1 (hh ▸ List.mem_map_of_mem Prod.fst hq)
        rw [Assoc.lookup, if_neg hne]
        rfl

theorem foldl_add_total (g : (String × MemberEntry) → Int) :
    ∀ (l : List (String × MemberEntry)) (a : Int),
    l.foldl (fun tot p => tot + g p) a = a + (l.map g).sum := by
  intro l
  induction l with
  | nil =>
    intro a
    simp
  | cons p rest ih =>
    intro a
    rw [List.foldl_cons, ih, List.map_cons, List.sum_cons]
    ring

/-- Claim C8: when the target month's snapshot has a chronologically
preceding snapshot (index `i - 1` of the date-sorted list), every member of
the target snapshot gets the monthly figure `max(0, currentSeasonal -
previousSeasonal)` against that preceding snapshot — clamped, never
negative — or their current seasonal counter when absent from the preceding
snapshot; the reported total is the sum of the per-member monthly figures. -/
theorem C8_donation_delta (snaps : List Snapshot) (monthKey : String)
    (i : Nat) (tgt prv : Snapshot)
    (hnd : ((sortSnaps snaps).map Snapshot.date).Nodup)
    (hget : (sortSnaps snaps).get? i = some tgt)
    (hdate : tgt.date = monthKey)
    (hpos : 0 < i)
    (hprev : (sortSnaps snaps).get? (i - 1) = some prv)
    (hndm : (tgt.members.map Prod.fst).Nodup) :
    ∃ out, calculate_monthly_donations snaps monthKey = some out
      ∧ out.firstSnapshot = false
      ∧ (∀ tag e, Assoc.lookup tgt.members tag = some e →
          Assoc.lookup out.members tag = some
            { name := e.name,
              monthly :=
                match Assoc.lookup prv.members tag with
                | some p => max 0 (e.seasonal - p.seasonal)
                | none => e.seasonal,
              seasonal := e.seasonal, lifetime := e.lifetime })
      ∧ out.total = (out.members.map (fun q => q.2.monthly)).sum := by
  have htgt_sorted : tgt ∈ sortSnaps snaps := List.get?_mem hget
  have htgt : tgt ∈ snaps := (sortSnaps_perm snaps).mem_iff.mp htgt_sorted
  have hne : snaps.isEmpty = false := by
    cases snaps with
    | nil => cases htgt
    | cons a l => rfl
  have hnd_snaps : (snaps.map Snapshot.date).Nodup :=
    (List.Perm.nodup_iff ((sortSnaps_perm snaps).map Snapshot.date)).mp hnd
  have hptgt : ((fun s => s.date == monthKey) tgt) = true := by
    show (tgt.date == monthKey) = true
    exact beq_iff_eq.mpr hdate
  have hfind : findSnap (fun s => s.date == monthKey) snaps = some tgt := by
    apply findSnap_eq (fun s => s.date == monthKey) tgt snaps htgt hptgt
    intro y hy hpy
    exact eq_of_nodup_dates snaps hnd_snaps y tgt hy htgt
      (by rw [beq_iff_eq.mp hpy, hdate])
  have hidx : findIdxFrom (fun s => s.date == monthKey) 0 (sortSnaps snaps)
      = some i := by
    have h := findIdxFrom_eq (fun s => s.date == monthKey) tgt (sortSnaps snaps)
      i 0 hget hptgt ?_
    · rw [h, Nat.zero_add]
    · intro j hj y hy
      cases hb : (y.date == monthKey)
      · exact hb
      · exfalso
        have hyx : y = tgt :=
          eq_of_nodup_dates (sortSnaps snaps) hnd y tgt (List.get?_mem hy)
            htgt_sorted (by rw [beq_iff_eq.mp hb, hdate])
        rw [hyx] at hy
        have hjeq : j = i := by
          obtain ⟨hlen, _⟩ := List.get?_eq_some.mp hy
          exact List.get?_inj hlen (hnd.of_map) (hy.trans hget.symm)
        omega
  have hi0 : ¬(i = 0) := by omega
  have hfold1 : tgt.members.foldl
      (fun acc q => Assoc.insert acc q.1 (calcMemberMonthly prv.members q.1 q.2))
      []
      = tgt.members.map (fun q => (q.1, calcMemberMonthly prv.members q.1 q.2)) := by
    have h := foldInsert_eq_append (calcMemberMonthly prv.members) tgt.members []
      hndm (fun p _ => rfl)
    simpa using h
  have hfold2 : tgt.members.foldl
      (fun tot q => tot + (calcMemberMonthly prv.members q.1 q.2).monthly) 0
      = (tgt.members.map
          (fun q => (calcMemberMonthly prv.members q.1 q.2).monthly)).sum := by
    have h := foldl_add_total
      (fun q => (calcMemberMonthly prv.members q.1 q.2).monthly) tgt.members 0
    simpa using h
  have hcalc : calculate_monthly_donations snaps monthKey
      = some { month := monthKey,
               members := tgt.members.map
                 (fun q => (q.1, calcMemberMonthly prv.members q.1 q.2)),
               total := (tgt.members.map
                 (fun q => (calcMemberMonthly prv.members q.1 q.2).monthly)).sum,
               firstSnapshot := false } := by
    simp only [calculate_monthly_donations, hne, hfind, hidx, hi0, hprev,
      hfold1, hfold2, Bool.false_eq_true, if_false]
  refine ⟨_, hcalc, rfl, ?_, ?_⟩
  · intro tag e he
    show Assoc.lookup
      (tgt.members.map (fun q => (q.1, calcMemberMonthly prv.members q.1 q.2)))
      tag = _
    rw [Assoc.lookup_map tgt.members (calcMemberMonthly prv.members) tag, he]
    rcases hlp : Assoc.lookup prv.members tag with _ | p <;>
      simp [calcMemberMonthly, hlp]
  · show (tgt.members.map
        (fun q => (calcMemberMonthly prv.members q.1 q.2).monthly)).sum
      = ((tgt.members.map
          (fun q => (q.1, calcMemberMonthly prv.members q.1 q.2))).map
            (fun q => q.2.monthly)).sum
    rw [List.map_map]
    rfl

/-- Witness for `C8_donation_delta`: two snapshots given newest-first; the
sort puts January before February; member `#P` 50→80 yields a monthly figure
of 30, member `#Q` 80→10 (season rollover) clamps to 0. -/
theorem C8_donation_delta_witness :
    ∃ out, calculate_monthly_donations
      [{ date := "2024-02",
         members := [("#P", { name := "P", seasonal := 80, lifetime := [] }),
                     ("#Q", { name := "Q", seasonal := 10, lifetime := [] })] },
       { date := "2024-01",
         members := [("#P", { name := "P", seasonal := 50, lifetime := [] }),
                     ("#Q", { name := "Q", seasonal := 80, lifetime := [] })] }]
      "2024-02" = some out
    ∧ Assoc.lookup out.members "#P"
        = some { name := "P", monthly := 30, seasonal := 80, lifetime := [] }
    ∧ Assoc.lookup out.members "#Q"
        = some { name := "Q", monthly := 0, seasonal := 10, lifetime := [] } := by
  obtain ⟨out, h1, _, h3, _⟩ := C8_donation_delta
    [{ date := "2024-02",
       members := [("#P", { name := "P", seasonal := 80, lifetime := [] }),
                   ("#Q", { name := "Q", seasonal := 10, lifetime := [] })] },
     { date := "2024-01",
       members := [("#P", { name := "P", seasonal := 50, lifetime := [] }),
                   ("#Q", { name := "Q", seasonal := 80, lifetime := [] })] }]
    "2024-02" 1
    { date := "2024-02",
      members := [("#P", { name := "P", seasonal := 80, lifetime := [] }),
                  ("#Q", { name := "Q", seasonal := 10, lifetime := [] })] }
    { date := "2024-01",
      members := [("#P", { name := "P", seasonal := 50, lifetime := [] }),
                  ("#Q", { name := "Q", seasonal := 80, lifetime := [] })] }
    (by decide) (by decide) rfl (by decide) (by decide) (by decide)
  refine ⟨out, h1, ?_, ?_⟩
  · rw [h3 "#P" { name := "P", seasonal := 80, lifetime := [] } (by decide)]
    decide
  · rw [h3 "#Q" { name := "Q", seasonal := 10, lifetime := [] } (by decide)]
    decide

end DiscordBot
